import Mathlib

/-!
Verification of the test-generation orchestration engine of `llama-cpp-tests`
(a CLI that drives a llama.cpp-backed model to produce unit-test files).

The development is a shallow embedding of the TypeScript sources:

* `src/chunker.ts`   — token estimation and source chunking (`estimateTokens`, `chunkSource`);
* `src/planner.ts`   — work planning (`planWork`);
* `src/generator.ts` — the basic per-chunk generation loop, retry budget,
  output-path resolution and failure summarisation;
* `src/generateAgent.ts` — the agent-mode per-chunk pipeline;
* `src/agent.ts`     — the tool-calling planning agent loop (`runAgent`);
* `src/runState.ts`  — plan signatures, run-state loading and resume bookkeeping.

Modelling conventions:

* JS strings are modelled by Lean `String` (ASCII payloads in all relevant
  inputs, so UTF-16 length and codepoint length agree).
* External effects (the model backend, `prettier`, `ts-morph` parsing, the
  filesystem, the test runner) are abstracted as explicit oracle parameters;
  the control flow around them is translated faithfully.
* `Math.ceil(n / 4)`, `Math.floor`, `Math.max` on non-negative integers are
  the corresponding `Nat` operations.
* The SHA-1 digest in `computePlanSignature` is modelled by its preimage (the
  exact byte string fed to the hash, in order): SHA-1 is a deterministic
  function of that string, so equal preimages give equal digests, and for the
  concrete inequalities below the preimages differ.
* `String.prototype.localeCompare`, used only as a sort comparator, is
  modelled by codepoint order; `Array.prototype.sort` (stable per ES2019) is
  modelled by `List.mergeSort`, which is stable.
-/

/-- Kind of a chunk, `'component' | 'function' | 'hook' | 'module'` from `chunker.ts`. -/
inductive ChunkKind
  | component
  | function
  | hook
  | module
deriving DecidableEq, Repr

/-- `Chunk` from `chunker.ts`: `{ id, code, kind, approxTokens }`. -/
structure Chunk where
  id : String
  code : String
  kind : ChunkKind
  approxTokens : Nat
deriving DecidableEq, Repr

/-- `estimateTokens` from `chunker.ts`: `Math.ceil(text.length / 4)`. -/
def estimateTokens (text : String) : Nat :=
  (text.length + 3) / 4

/-- Test for the JS character class `[A-Z]` (ASCII uppercase only). -/
def isAsciiUpper (c : Char) : Bool :=
  'A' ≤ c && c ≤ 'Z'

/-- Matches the regex `/^use[A-Z]/` from `inferKindFromName`. -/
def startsWithUseUpper : List Char → Bool
  | 'u' :: 's' :: 'e' :: c :: _ => isAsciiUpper c
  | _ => false

/-- Matches the regex `/^[A-Z]/` from `inferKindFromName`. -/
def headIsUpper : List Char → Bool
  | c :: _ => isAsciiUpper c
  | [] => false

/-- `inferKindFromName` from `chunker.ts`. -/
def inferKindFromName (name : String) : ChunkKind :=
  if startsWithUseUpper name.data then .hook
  else if headIsUpper name.data then .component
  else .function

/-- Fuel-indexed decimal digit extraction (digits in reverse order); the fuel
only serves structural recursion and is irrelevant once it exceeds the
argument. -/
def natDigitsRevGo : Nat → Nat → List Char
  | 0, _ => []
  | fuel + 1, n =>
    if n < 10 then [Nat.digitChar n]
    else Nat.digitChar (n % 10) :: natDigitsRevGo fuel (n / 10)

/-- Decimal representation of a `Nat`, digits in reverse order.  Models the
digit sequence of the JS `String(number)` conversion for non-negative
integers. -/
def natDigitsRev (n : Nat) : List Char :=
  natDigitsRevGo (n + 1) n

/-- Model of the JS `String(number)` conversion for non-negative integers
(decimal representation). -/
def natStr (n : Nat) : String :=
  String.mk (natDigitsRev n).reverse

/-- A top-level named declaration of a source file, as extracted by the
ts-morph traversal in `chunkSource` (a named function declaration, or a
variable declaration whose initializer is an arrow function, function
expression or component-shaped expression).  The ts-morph parse itself is an
external library and is abstracted: `name` is the declaration name and `text`
the statement text pushed into the chunk. -/
structure NamedDecl where
  name : String
  text : String
deriving DecidableEq, Repr

/-- The chunks built from the named top-level declarations in `chunkSource`
(`relPath + '#' + name`, the declaration text, kind via `inferKindFromName`). -/
def declChunks (relPath : String) (decls : List NamedDecl) : List Chunk :=
  decls.map fun d =>
    { id := relPath ++ "#" ++ d.name
      code := d.text
      kind := inferKindFromName d.name
      approxTokens := estimateTokens d.text }

/-- The fixed-size slicing fallback loop of `chunkSource`
(`for (let i = 0; i < code.length; i += approxSize * 4) { ... if (chunks.length > 12) break; }`).
`step` is `approxSize * 4`; the loop pushes `code.slice(i, i + step)` and
stops once more than 12 chunks have been collected. -/
def sliceLoop (relPath : String) (code : String) (step : Nat) (i : Nat)
    (acc : List Chunk) : List Chunk :=
  if i < code.length then
    let slice := String.mk ((code.data.drop i).take step)
    let c : Chunk :=
      { id := relPath ++ "#slice" ++ natStr i
        code := slice
        kind := .module
        approxTokens := estimateTokens slice }
    if 12 < (acc ++ [c]).length then acc ++ [c]
    else sliceLoop relPath code step (i + step) (acc ++ [c])
  else acc
termination_by 13 - acc.length
decreasing_by simp only [List.length_append, List.length_cons, List.length_nil] at *; omega

/-- `chunkSource` from `chunker.ts`.  `decls` abstracts the result of the
ts-morph traversal of the parsed file (empty when no top-level named
declarations are found).  `approxSize = Math.max(512, maxTokens - 512)`
(`Nat` subtraction agrees with the JS clamp since a negative difference is
clamped to 512 either way). -/
def chunkSource (relPath : String) (code : String) (maxTokens : Nat)
    (decls : List NamedDecl) : List Chunk :=
  let tokens := estimateTokens code
  if tokens ≤ maxTokens then
    [{ id := relPath ++ "#module", code := code, kind := .module, approxTokens := tokens }]
  else
    let fromDecls := declChunks relPath decls
    let chunks :=
      if fromDecls.isEmpty then
        sliceLoop relPath code ((max 512 (maxTokens - 512)) * 4) 0 []
      else fromDecls
    chunks.filter fun c => c.approxTokens ≤ maxTokens

/-- `SourceFile` as consumed by `planWork` (`projectScanner.ts` produces it;
only the fields `rel` and `text` are read by the planner). -/
structure SourceFile where
  rel : String
  text : String
deriving DecidableEq, Repr

/-- The `framework` field of `TestSetup` (`'jest' | 'vitest'`). -/
inductive Framework
  | jest
  | vitest
deriving DecidableEq, Repr

/-- The `renderer` field of `TestSetup` (`'rtl-web' | 'rtl-native' | 'none'`). -/
inductive Renderer
  | rtlWeb
  | rtlNative
  | noRenderer
deriving DecidableEq, Repr

/-- Serialisation of a `Framework` back to its source string. -/
def fwStr : Framework → String
  | .jest => "jest"
  | .vitest => "vitest"

/-- Serialisation of a `Renderer` back to its source string. -/
def rendererStr : Renderer → String
  | .rtlWeb => "rtl-web"
  | .rtlNative => "rtl-native"
  | .noRenderer => "none"

/-- `WorkItem` from `planner.ts`. -/
structure WorkItem where
  rel : String
  originalTokens : Nat
  chunks : List Chunk
  skipReason : Option String := none
deriving DecidableEq, Repr

/-- `WorkPlan` from `planner.ts`. -/
structure WorkPlan where
  ctxBudget : Nat
  renderer : Renderer
  framework : Framework
  items : List WorkItem
deriving DecidableEq, Repr

/-- `planWork` from `planner.ts`.  `isPureTypes` abstracts the regex test
`/^(export\s+type|type\s+|interface\s+)/m.test(text) && !/\bfunction\b|=>|return\s*\(/.test(text)`
(the JS regex engine is an external library); `declsOf` abstracts the ts-morph
parse used by `chunkSource`.  `usable = Math.max(1024, Math.floor(contextSize * 0.5))`. -/
def planWork (files : List SourceFile) (isPureTypes : String → Bool)
    (declsOf : SourceFile → List NamedDecl) (renderer : Renderer)
    (framework : Framework) (contextSize : Nat) : WorkPlan :=
  let usable := max 1024 (contextSize / 2)
  let items := files.filterMap fun f =>
    let tok := estimateTokens f.text
    if tok < 64 then none
    else if isPureTypes f.text then
      some { rel := f.rel, originalTokens := tok, chunks := []
             skipReason := some "Types-only file" }
    else
      let chunks := chunkSource f.rel f.text (usable - 768) (declsOf f)
      if chunks.isEmpty then
        some { rel := f.rel, originalTokens := tok, chunks := []
               skipReason := some "Too large to chunk under budget" }
      else
        some { rel := f.rel, originalTokens := tok, chunks := chunks }
  { ctxBudget := usable, renderer := renderer, framework := framework, items := items }

/-- The characters after the last `'/'` of a path (the whole path when it has
no slash).  Core of the `node:path` `basename`/`dirname` model for normalized
relative POSIX paths (no trailing slashes). -/
def afterLastSlash (l : List Char) : List Char :=
  (l.reverse.takeWhile (· ≠ '/')).reverse

/-- The characters before the last `'/'` of a path (undefined content when
there is no slash; callers guard on `hasSlash`). -/
def beforeLastSlash (l : List Char) : List Char :=
  ((l.reverse.dropWhile (· ≠ '/')).drop 1).reverse

/-- Whether a path contains a separator. -/
def hasSlash (l : List Char) : Bool :=
  l.any (· = '/')

/-- Model of `node:path` `dirname` for normalized relative POSIX paths. -/
def pathDirname (p : String) : String :=
  if hasSlash p.data then String.mk (beforeLastSlash p.data) else "."

/-- Model of `node:path` `extname`: the final-component suffix starting at its
last dot, empty when there is no dot or the dot is the component's first
character. -/
def pathExtname (p : String) : String :=
  let b := afterLastSlash p.data
  let revTail := b.reverse.takeWhile (· ≠ '.')
  match b.reverse.dropWhile (· ≠ '.') with
  | [] => ""
  | [_] => ""
  | _ => String.mk ('.' :: revTail.reverse)

/-- Model of `node:path` `basename(p, ext)`: the final component, with `ext`
removed when it is a proper suffix of it. -/
def pathBasename (p : String) (ext : String) : String :=
  let b := afterLastSlash p.data
  if ext.data ≠ [] ∧ ext.data ≠ b ∧ ext.data.isSuffixOf b then
    String.mk (b.take (b.length - ext.data.length))
  else String.mk b

/-- Concatenation of path segments with `'/'`. -/
def joinSegs : List String → String
  | [] => ""
  | [s] => s
  | s :: rest => s ++ "/" ++ joinSegs rest

/-- Model of `node:path` `join` for normalized segments: empty segments are
ignored, the rest are joined with `'/'` (an all-empty join yields `"."`). -/
def pathJoin (segs : List String) : String :=
  let xs := segs.filter fun s => ¬ s = ""
  if xs.isEmpty then "." else joinSegs xs

/-- The recognized test-file extensions of `resolveOutPath`. -/
def recognizedExts : List String :=
  [".ts", ".tsx", ".js", ".jsx"]

/-- Model of `String.prototype.toLowerCase` for ASCII strings. -/
def asciiLower (s : String) : String :=
  String.mk (s.data.map fun c => if isAsciiUpper c then Char.ofNat (c.toNat + 32) else c)

/-- `resolveOutPath` from `generator.ts`:
`path.join(outDir || projectRoot, destDir, '__tests__', baseName + '.test' + normalizedExt)`. -/
def resolveOutPath (projectRoot outDir rel : String) : String :=
  let relDir := pathDirname rel
  let ext := pathExtname rel
  let normalizedExt := if asciiLower ext ∈ recognizedExts then ext else ".ts"
  let baseName := pathBasename rel ext
  let testFile := baseName ++ ".test" ++ normalizedExt
  let destDir := if relDir = "." then "" else relDir
  let baseDir := if outDir = "" then projectRoot else outDir
  pathJoin [baseDir, destDir, "__tests__", testFile]

/-- `resolveOutPath` from `generateAgent.ts` (identical computation, except the
base directory is always `outDir`). -/
def resolveOutPathAgent (outDir rel : String) : String :=
  let relDir := pathDirname rel
  let ext := pathExtname rel
  let normalizedExt := if asciiLower ext ∈ recognizedExts then ext else ".ts"
  let baseName := pathBasename rel ext
  let testFile := baseName ++ ".test" ++ normalizedExt
  let destDir := if relDir = "." then "" else relDir
  pathJoin [outDir, destDir, "__tests__", testFile]

/-- A structured description of a normalized relative source path: optional
directory part, base name, extension. -/
structure RelParts where
  dir : Option String
  base : String
  ext : String
deriving DecidableEq, Repr

/-- The relative path described by `RelParts`. -/
def relOfParts (p : RelParts) : String :=
  match p.dir with
  | none => p.base ++ p.ext
  | some d => d ++ "/" ++ p.base ++ p.ext

/-- Wellformedness of a `RelParts` description: nonempty slash-free base name,
one of the scanner's recognized lowercase extensions, nonempty directory part
when present.  This is the shape of every relative path produced by the
project scanner (glob patterns `**/*.{ts,tsx,js,jsx}`). -/
def WfParts (p : RelParts) : Prop :=
  p.base ≠ "" ∧ '/' ∉ p.base.data ∧ p.ext ∈ recognizedExts ∧
    ∀ d, p.dir = some d → d ≠ "" ∧ d ≠ "."

/-- `chunkKey` from `runState.ts`: `` `${file}::${chunkId ?? '0'}` ``. -/
def chunkKey (file : String) (chunkId : Option String) : String :=
  file ++ "::" ++ (chunkId.getD "0")

/-- The `mode` field of `StoredRunState` (`'agent' | 'basic'`). -/
inductive RunMode
  | agent
  | basic
deriving DecidableEq, Repr

/-- The `status` field of `StoredChunkState` (`'write' | 'skip' | 'exists'`). -/
inductive ChunkStatus
  | write
  | skip
  | exists
deriving DecidableEq, Repr

/-- `StoredChunkState` from `runState.ts` (the timestamps and optional
metadata are irrelevant to the properties below and carried opaquely). -/
structure StoredChunkState where
  status : ChunkStatus
  message : Option String := none
  tokens : Option Nat := none
  durationMs : Option Nat := none
  updatedAt : Nat := 0
deriving DecidableEq, Repr

/-- The `totals` field of `StoredRunState` (`exists` is not a legal Lean field
name, hence `existsCount`). -/
structure RunTotals where
  written : Nat
  skipped : Nat
  existsCount : Nat
  completedChunks : Nat
  totalChunks : Nat
deriving DecidableEq, Repr

/-- `StoredRunState` from `runState.ts`.  `perFile` is an association list
modelling the JS record `path → { summary, chunks }`; the per-file summary is
irrelevant to the properties below and omitted, `chunks` maps chunk keys to
`StoredChunkState`. -/
structure StoredRunState where
  version : Nat
  planSignature : String
  mode : RunMode
  totals : RunTotals
  perFile : List (String × List (String × StoredChunkState))
  createdAt : Nat := 0
  updatedAt : Nat := 0
deriving DecidableEq, Repr

/-- Sort comparator used by `computePlanSignature`
(`(a, b) => a.localeCompare(b)` on the key), modelled by codepoint order. -/
def keyLe (key : α → String) (a b : α) : Bool :=
  key a ≤ key b

/-- Stable ascending sort by a string key: model of
`[...xs].sort((a, b) => key(a).localeCompare(key(b)))`. -/
def sortByStringKey (key : α → String) (l : List α) : List α :=
  l.mergeSort (keyLe key)

/-- In-order concatenation of a sequence of `hash.update(...)` arguments. -/
def strConcat (l : List String) : String :=
  l.foldr (· ++ ·) ""

/-- Serialisation of a `ChunkKind` back to its source string. -/
def kindStr : ChunkKind → String
  | .component => "component"
  | .function => "function"
  | .hook => "hook"
  | .module => "module"

/-- The bytes `computePlanSignature` feeds to the hash for one chunk:
`id`, `'|'`, `kind`, `'|'`, `String(approxTokens)` (note: no separator after a
chunk record). -/
def chunkRec (c : Chunk) : String :=
  c.id ++ "|" ++ kindStr c.kind ++ "|" ++ natStr c.approxTokens

/-- The bytes `computePlanSignature` feeds to the hash for one work item:
`rel`, `'|'`, `String(originalTokens)`, `'|'`, the skip reason when truthy,
`'|'`, `String(chunks.length)`, then each chunk record of the id-sorted chunk
list. -/
def itemSerial (it : WorkItem) : String :=
  it.rel ++ "|" ++ natStr it.originalTokens ++ "|" ++ (it.skipReason.getD "") ++ "|" ++
    natStr it.chunks.length ++
    strConcat ((sortByStringKey Chunk.id it.chunks).map chunkRec)

/-- `computePlanSignature` from `runState.ts`, modelled by the SHA-1 preimage:
the exact concatenation of all `hash.update(...)` arguments, with items sorted
by `rel` and each item's chunks sorted by `id` (both via `localeCompare`). -/
def computePlanSignature (plan : WorkPlan) : String :=
  fwStr plan.framework ++ "|" ++ rendererStr plan.renderer ++ "|" ++ natStr plan.ctxBudget ++
    strConcat ((sortByStringKey WorkItem.rel plan.items).map itemSerial)

/-- Outcome of the `fs.readFile` call in `loadRunState`. -/
inductive ReadResult
  | enoent
  | ioError
  | ok (data : String)

/-- Outcome of `JSON.parse` on the run-state file followed by the
`parsed && parsed.version === 1` inspection: the parse throws, yields a falsy
value, or yields an object whose `version` property may be any value
(modelled by `Option Int`; `some 1` is the accepted case) and whose remaining
payload is read back as a `StoredRunState`. -/
inductive ParsedState
  | throwsErr
  | nullish
  | object (version : Option Int) (state : StoredRunState)

/-- `loadRunState` from `runState.ts`: missing file (`ENOENT`), any other read
error, a parse failure, a falsy parse result, or a version mismatch all yield
`null`; only a version-1 object is returned. -/
def loadRunState (read : ReadResult) (parse : String → ParsedState) :
    Option StoredRunState :=
  match read with
  | .enoent => none
  | .ioError => none
  | .ok data =>
    match parse data with
    | .throwsErr => none
    | .nullish => none
    | .object v st => if v = some 1 then some st else none

/-- `isStateCompatible` from `runState.ts`. -/
def isStateCompatible (state : StoredRunState) (signature : String)
    (mode : RunMode) (totalChunks : Nat) : Bool :=
  if state.version ≠ 1 then false
  else if state.planSignature ≠ signature then false
  else if state.mode ≠ mode then false
  else if state.totals.totalChunks ≠ totalChunks then false
  else true

/-- The resume decision of `cli.ts`: a previous state is resumed only when it
exists and `isStateCompatible` accepts it; otherwise the state file is removed
and the run starts fresh. -/
def resumeDecision (existing : Option StoredRunState) (signature : String)
    (mode : RunMode) (totalChunks : Nat) : Option StoredRunState :=
  match existing with
  | none => none
  | some st => if isStateCompatible st signature mode totalChunks then some st else none

/-- The status filter of `RunStateManager.getCompletedChunkKeys`
(`status === 'write' || status === 'skip' || status === 'exists'`). -/
def completedStatus (s : ChunkStatus) : Bool :=
  s = ChunkStatus.write || s = ChunkStatus.skip || s = ChunkStatus.exists

/-- `RunStateManager.getCompletedChunkKeys` from `runState.ts`: all chunk keys
recorded with status `write`, `skip` or `exists` (as a list of keys rather
than a JS `Set`). -/
def getCompletedChunkKeys (state : StoredRunState) : List String :=
  state.perFile.flatMap fun entry =>
    (entry.2.filter fun c => completedStatus c.2.status).map (·.1)

/-- The progress event types of the `onProgress` callback
(`'start'|'write'|'skip'|'exists'|'tool'|'error'`). -/
inductive EvType
  | start
  | write
  | skip
  | exists
  | tool
  | error
deriving DecidableEq, Repr

/-- A progress event, as passed to `onProgress`. -/
structure Event where
  type : EvType
  file : String
  chunkId : Option String := none
  message : Option String := none
deriving DecidableEq, Repr

/-- The externally visible side effects of one chunk's processing, in program
order: a backend completion call, the output-file existence probe
(`fs.access`), a write of the output file, or its removal. -/
inductive Effect
  | backend
  | checkExists
  | writeFile
  | removeFile
deriving DecidableEq, Repr

/-- `summarizeFailure` from `generator.ts`: first three trimmed non-empty
lines joined by spaces, truncated to 157 characters plus an ellipsis when
longer than 160.  `text.split(/\r?\n/)` is modelled by normalising `"\r\n"`
to `"\n"` and splitting on `"\n"`. -/
def summarizeFailure (text : String) : String :=
  if text.isEmpty then "Unknown error"
  else
    let lines := (((text.replace "\r\n" "\n").splitOn "\n").map String.trim).filter
      fun l => ¬ l.isEmpty
    let snippet := String.intercalate " " (lines.take 3)
    if 160 < snippet.length then String.mk (snippet.data.take 157) ++ "…" else snippet

/-- What the basic generation loop observes in one attempt, abstracting the
backend completion, `extractCodeBlock`, `tryFormat`,
`verifyGeneratedTestSource` and `runGeneratedTestFile`:

* `noCode` — no code block could be extracted;
* `diagnostics` — verification produced diagnostics (already joined with
  `' | '`), with the formatted candidate;
* `noTests` — verification found zero test cases;
* `runFailed` — the candidate was written but its test run failed, with the
  captured runner output and the written code;
* `success` — the candidate was written and its test run passed, with the
  written code and the `countTests`/`detectHints` results. -/
inductive AttemptObs
  | noCode
  | diagnostics (joined : String) (formatted : String)
  | noTests (formatted : String)
  | runFailed (output : String) (finalCode : String)
  | success (finalCode : String) (tests : Nat) (hints : String)

/-- Whether an attempt observation is the successful one. -/
def isSuccessObs : AttemptObs → Bool
  | .success _ _ _ => true
  | _ => false

/-- Result of the retry loop of `generateTestsForPlan`: whether a candidate
was accepted (`wrote`), the last failure summary source (`finalFailure`), the
content at the output path after the loop, the side effects performed, and
the message of the `write` event when accepted. -/
structure LoopResult where
  wrote : Bool
  finalFailure : String
  content : Option String
  actions : List Effect
  writeMsg : Option String
deriving DecidableEq, Repr

/-- The retry loop body of `generateTestsForPlan`
(`for (let attempt = 1; attempt <= opts.maxFixLoops; attempt++)`), iterating
over the remaining attempt numbers.  `ff` is the running `finalFailure`
value, `content` the current content at the output path.  The `break` on a
run failure at the final attempt coincides with the loop simply ending. -/
def attemptGo (obs : Nat → AttemptObs) : List Nat → String → Option String → LoopResult
  | [], ff, content =>
    { wrote := false, finalFailure := ff, content := content, actions := [], writeMsg := none }
  | attempt :: rest, _, content =>
    match obs attempt with
    | .noCode =>
      let r := attemptGo obs rest "Model returned no code" content
      { r with actions := .backend :: r.actions }
    | .diagnostics joined _ =>
      let r := attemptGo obs rest joined content
      { r with actions := .backend :: r.actions }
    | .noTests _ =>
      let r := attemptGo obs rest "No tests detected after verification" content
      { r with actions := .backend :: r.actions }
    | .runFailed output finalCode =>
      let ff := summarizeFailure (if output.isEmpty then "Jest run failed" else output)
      let r := attemptGo obs rest ff (some finalCode)
      { r with actions := .backend :: .writeFile :: r.actions }
    | .success finalCode tests hints =>
      { wrote := true
        finalFailure := "unused"
        content := some finalCode
        actions := [.backend, .writeFile]
        writeMsg := some (natStr tests ++ "|" ++ hints) }

/-- The attempt numbers `1, …, maxFixLoops` visited by the retry loop. -/
def attemptNumbers (maxFixLoops : Nat) : List Nat :=
  List.range' 1 maxFixLoops

/-- The full retry loop of `generateTestsForPlan`, starting from
`finalFailure = 'Model returned no code'` with the pre-existing content at
the output path. -/
def attemptLoop (obs : Nat → AttemptObs) (maxFixLoops : Nat)
    (existingContent : Option String) : LoopResult :=
  attemptGo obs (attemptNumbers maxFixLoops) "Model returned no code" existingContent

/-- The observable outcome of processing one chunk: progress events, side
effects in order, the resolved output path, and the content at that path
afterwards. -/
structure ChunkState where
  events : List Event
  actions : List Effect
  outPath : String
  fileContent : Option String
deriving DecidableEq, Repr

/-- The per-chunk body of `generateTestsForPlan` (`generator.ts`): resume
check, `start` event, output-path resolution, existence check (when `force`
is unset), then the retry loop; on failure the partial file is removed and a
summarising `skip` event is emitted.  `existingContent` is the content at the
resolved output path before this chunk runs (`none` when the file does not
exist); `inResume` is `opts.resume?.completedChunks.has(key)`. -/
def processChunkBasic (projectRoot outDir : String) (force : Bool) (rel : String)
    (chunk : Chunk) (existingContent : Option String) (inResume : Bool)
    (obs : Nat → AttemptObs) (maxFixLoops : Nat) : ChunkState :=
  let outPath := resolveOutPath projectRoot outDir rel
  if inResume then
    { events := [], actions := [], outPath := outPath, fileContent := existingContent }
  else
    let startEv : Event :=
      { type := .start, file := rel, chunkId := some chunk.id
        message := some (natStr chunk.approxTokens) }
    if ¬ force ∧ existingContent.isSome then
      { events := [startEv, { type := .exists, file := rel, chunkId := some chunk.id }]
        actions := [.checkExists], outPath := outPath, fileContent := existingContent }
    else
      let pre : List Effect := if force then [] else [.checkExists]
      let r := attemptLoop obs maxFixLoops existingContent
      if r.wrote then
        { events := [startEv,
            { type := .write, file := rel, chunkId := some chunk.id, message := r.writeMsg }]
          actions := pre ++ r.actions, outPath := outPath, fileContent := r.content }
      else
        { events := [startEv,
            { type := .skip, file := rel, chunkId := some chunk.id
              message := some ("Failed after " ++ natStr maxFixLoops ++ " attempts: " ++
                summarizeFailure r.finalFailure) }]
          actions := pre ++ r.actions ++ [.removeFile], outPath := outPath
          fileContent := none }

/-- The tool names of the agent's whitelisted tool table (`agent.ts`). -/
def toolNames : List String :=
  ["project_info", "read_file", "list_exports", "find_usages", "get_ast_digest",
   "grep_text", "infer_props_from_usage"]

/-- One backend turn of the planning agent, abstracting
`model.complete` + `extractJson`:

* `malformed` — no JSON object could be extracted;
* `finalPlan` — `{"final":{"plan":[...]}}` with the plan entries carried
  opaquely;
* `toolCall` — `{"tool": name, "args": ...}`, with `detail` the
  `relPath/identifier/component` string reported to `onTool`. -/
inductive AgentTurn
  | malformed
  | finalPlan (plan : List String)
  | toolCall (name : String) (detail : String)

/-- Result of `runAgent` (`agent.ts`): the `ok` flag, the `plan` field
(`none` models an absent field), the number of backend completion calls made,
and the `(tool, detail)` pairs reported through `onTool` in order. -/
structure AgentRunResult where
  ok : Bool
  plan : Option (List String)
  calls : Nat
  toolLog : List (String × String)
deriving DecidableEq, Repr

/-- The loop of `runAgent` (`for (let step = 0; step < maxSteps; step++)`)
over the remaining step numbers: a malformed response or an unknown/missing
tool name fails the run with no plan field; a final plan succeeds; a known
tool call is dispatched and the loop continues; running out of steps returns
`{ ok: false, plan: [] }`. -/
def runAgentGo (turns : Nat → AgentTurn) :
    List Nat → Nat → List (String × String) → AgentRunResult
  | [], calls, log => { ok := false, plan := some [], calls := calls, toolLog := log }
  | step :: rest, calls, log =>
    match turns step with
    | .malformed => { ok := false, plan := none, calls := calls + 1, toolLog := log }
    | .finalPlan p => { ok := true, plan := some p, calls := calls + 1, toolLog := log }
    | .toolCall name detail =>
      if name ≠ "" ∧ name ∈ toolNames then
        runAgentGo turns rest (calls + 1) (log ++ [(name, detail)])
      else { ok := false, plan := none, calls := calls + 1, toolLog := log }

/-- `runAgent` from `agent.ts` (planning-loop variant), with the backend
abstracted as the `turns` oracle. -/
def runAgent (maxSteps : Nat) (turns : Nat → AgentTurn) : AgentRunResult :=
  runAgentGo turns (List.range maxSteps) 0 []

/-- What the agent pipeline observes from `verifyGeneratedTestSource` on the
formatted candidate. -/
inductive VerifyObs
  | diagnostics (joined : String)
  | noTests
  | ok (code : String)

/-- What the agent pipeline observes from `reviewGeneratedTest` plus the
re-verification of its output: review unusable, review output failed
verification, review output removed all tests, or an accepted refinement. -/
inductive ReviewObs
  | notOk
  | failedVerification (joined : String)
  | removedTests
  | improved (code : String)

/-- The per-chunk body of `generateWithAgent` (`generateAgent.ts`): resume
check, `start` event, the planning agent run, empty-plan check, the test
generation call, code extraction, existence check (after the backend calls),
verification, review, and the final write.  The review's own backend traffic
is abstracted as `reviewCalls` completion calls; `tests`/`hints` abstract
`countTests`/`detectHints` on the final code. -/
def processChunkAgent (outDir : String) (force : Bool) (rel : String) (chunk : Chunk)
    (existingContent : Option String) (inResume : Bool) (maxToolCalls : Nat)
    (turns : Nat → AgentTurn) (genCode : Option String) (verify : VerifyObs)
    (reviewCalls : Nat) (review : ReviewObs) (tests : Nat) (hints : String) : ChunkState :=
  let outPath := resolveOutPathAgent outDir rel
  if inResume then
    { events := [], actions := [], outPath := outPath, fileContent := existingContent }
  else
    let startEv : Event :=
      { type := .start, file := rel, chunkId := some chunk.id
        message := some (natStr chunk.approxTokens) }
    let mkEv := fun (t : EvType) (msg : Option String) =>
      ({ type := t, file := rel, chunkId := some chunk.id, message := msg } : Event)
    let agentResult := runAgent maxToolCalls turns
    let toolEvs := agentResult.toolLog.map fun td =>
      mkEv .tool (some (td.1 ++ " " ++ td.2))
    let agentActs : List Effect := List.replicate agentResult.calls .backend
    if agentResult.ok = false ∨ agentResult.plan = none ∨ agentResult.plan = some [] then
      { events := [startEv] ++ toolEvs ++ [mkEv .skip (some "Empty plan")]
        actions := agentActs, outPath := outPath, fileContent := existingContent }
    else
      match genCode with
      | none =>
        { events := [startEv] ++ toolEvs ++ [mkEv .skip (some "Model returned no code")]
          actions := agentActs ++ [.backend], outPath := outPath
          fileContent := existingContent }
      | some _ =>
        if ¬ force ∧ existingContent.isSome then
          { events := [startEv] ++ toolEvs ++ [mkEv .exists none]
            actions := agentActs ++ [.backend, .checkExists], outPath := outPath
            fileContent := existingContent }
        else
          let pre := agentActs ++ [.backend] ++ (if force then [] else [.checkExists])
          match verify with
          | .diagnostics joined =>
            { events := [startEv] ++ toolEvs ++ [mkEv .error (some joined)]
              actions := pre, outPath := outPath, fileContent := existingContent }
          | .noTests =>
            { events := [startEv] ++ toolEvs ++
                [mkEv .skip (some "No tests detected after verification")]
              actions := pre, outPath := outPath, fileContent := existingContent }
          | .ok vcode =>
            let reviewActs : List Effect := List.replicate reviewCalls .backend
            let writeEv := mkEv .write (some (natStr tests ++ "|" ++ hints))
            match review with
            | .improved rcode =>
              { events := [startEv] ++ toolEvs ++ [writeEv]
                actions := pre ++ reviewActs ++ [.writeFile], outPath := outPath
                fileContent := some rcode }
            | .failedVerification joined =>
              { events := [startEv] ++ toolEvs ++
                  [mkEv .error (some ("Review output failed verification: " ++ joined)), writeEv]
                actions := pre ++ reviewActs ++ [.writeFile], outPath := outPath
                fileContent := some vcode }
            | .removedTests =>
              { events := [startEv] ++ toolEvs ++
                  [mkEv .error (some "Review output removed all tests"), writeEv]
                actions := pre ++ reviewActs ++ [.writeFile], outPath := outPath
                fileContent := some vcode }
            | .notOk =>
              { events := [startEv] ++ toolEvs ++ [writeEv]
                actions := pre ++ reviewActs ++ [.writeFile], outPath := outPath
                fileContent := some vcode }

/-- A work item with its chunk list put into the signature's sort order
(`rel`, `originalTokens`, `skipReason` unchanged). -/
def canonItem (it : WorkItem) : WorkItem :=
  { it with chunks := sortByStringKey Chunk.id it.chunks }

/-- Two work items that agree on every field except that their chunk lists
are permutations of each other. -/
def ItemPerm (i j : WorkItem) : Prop :=
  i.rel = j.rel ∧ i.originalTokens = j.originalTokens ∧ i.skipReason = j.skipReason ∧
    i.chunks.Perm j.chunks

/-- Two plans that agree on budget, renderer and framework and whose item
lists differ only by permuting the items and permuting chunks within items. -/
def PlanPerm (p q : WorkPlan) : Prop :=
  p.ctxBudget = q.ctxBudget ∧ p.renderer = q.renderer ∧ p.framework = q.framework ∧
    ∃ mid, List.Forall₂ ItemPerm p.items mid ∧ mid.Perm q.items

/-- The sort keys used by `computePlanSignature` are pairwise distinct: item
`rel` paths are distinct, and chunk ids are distinct within each item.
`planWork` produces one item per scanned file and derives chunk ids from
distinct declaration names or slice offsets, so real plans satisfy this. -/
def PlanKeysNodup (p : WorkPlan) : Prop :=
  (p.items.map WorkItem.rel).Nodup ∧ ∀ it ∈ p.items, (it.chunks.map Chunk.id).Nodup

/-- The plan obtained by replacing chunk `c0` of item `i0` with `c0'`,
leaving everything else in place. -/
def replaceChunk (p : WorkPlan) (i0 : WorkItem) (c0 c0' : Chunk) : WorkPlan :=
  { p with
    items := p.items.map fun it =>
      if it = i0 then
        { it with chunks := it.chunks.map fun c => if c = c0 then c0' else c }
      else it }

/-- A 24577-character source text (no top-level declarations): long enough
that the slicing fallback of `chunkSource` visits thirteen slice offsets at
the minimal slice width of 2048 characters. -/
def bigSliceCode : String :=
  String.mk (List.replicate 24577 'a')

/-- Fixture chunk with id `"A|hook|5B"` (ids may contain `'|'`; `chunkSource`
builds them from the relative file path, which may itself contain `'|'`). -/
def sigChunk1 : Chunk :=
  { id := "A|hook|5B", code := "x", kind := .hook, approxTokens := 5 }

/-- Fixture chunk with id `"A|hook|5B|hook|5A"`. -/
def sigChunk2 : Chunk :=
  { id := "A|hook|5B|hook|5A", code := "y", kind := .hook, approxTokens := 5 }

/-- `sigChunk1` with only its id changed (to `"B|hook|5A"`). -/
def sigChunk1' : Chunk :=
  { id := "B|hook|5A", code := "x", kind := .hook, approxTokens := 5 }

/-- Fixture plan containing `sigChunk1` and `sigChunk2` in one item. -/
def sigPlanA : WorkPlan :=
  { ctxBudget := 1024, renderer := .rtlWeb, framework := .jest
    items := [{ rel := "f.ts", originalTokens := 9, chunks := [sigChunk1, sigChunk2] }] }

/-- `sigPlanA` after changing only `sigChunk1`'s id (i.e.
`replaceChunk sigPlanA _ sigChunk1 sigChunk1'`). -/
def sigPlanB : WorkPlan :=
  { ctxBudget := 1024, renderer := .rtlWeb, framework := .jest
    items := [{ rel := "f.ts", originalTokens := 9, chunks := [sigChunk1', sigChunk2] }] }

/-- A backend that requests the (valid) `project_info` tool on every turn:
the planning agent makes no progress and exhausts its step budget. -/
def stuckTurns : Nat → AgentTurn :=
  fun _ => AgentTurn.toolCall "project_info" ""

/-- A backend that immediately returns the deliberate empty plan
`{"final":{"plan":[]}}`. -/
def emptyPlanTurns : Nat → AgentTurn :=
  fun _ => AgentTurn.finalPlan []

/-- A backend that immediately returns a one-case plan. -/
def onePlanTurns : Nat → AgentTurn :=
  fun _ => AgentTurn.finalPlan ["case"]

/-- Fixture chunk used in concrete per-chunk pipeline runs. -/
def fixChunk : Chunk :=
  { id := "src/a.ts#module", code := "export const a = 1", kind := .module, approxTokens := 5 }

theorem natDigitsRevGo_adequate :
    ∀ f1 f2 n, n < f1 → n < f2 → natDigitsRevGo f1 n = natDigitsRevGo f2 n := by
  intro f1
  induction f1 with
  | zero => intro f2 n h1 _; omega
  | succ f1 ih =>
    intro f2 n h1 h2
    cases f2 with
    | zero => omega
    | succ f2 =>
      rw [natDigitsRevGo, natDigitsRevGo]
      by_cases h10 : n < 10
      · rw [if_pos h10, if_pos h10]
      · rw [if_neg h10, if_neg h10]
        have hdiv : n / 10 < n := Nat.div_lt_self (by omega) (by omega)
        rw [ih f2 (n / 10) (by omega) (by omega)]

theorem natDigitsRev_eq (n : Nat) :
    natDigitsRev n =
      if n < 10 then [Nat.digitChar n]
      else Nat.digitChar (n % 10) :: natDigitsRev (n / 10) := by
  rw [natDigitsRev, natDigitsRevGo, natDigitsRev]
  by_cases h10 : n < 10
  · rw [if_pos h10, if_pos h10]
  · rw [if_neg h10, if_neg h10]
    have hdiv : n / 10 < n := Nat.div_lt_self (by omega) (by omega)
    rw [natDigitsRevGo_adequate n (n / 10 + 1) (n / 10) (by omega) (by omega)]

theorem natDigitsRev_ne_nil (n : Nat) : natDigitsRev n ≠ [] := by
  rw [natDigitsRev_eq]
  split <;> simp

theorem digitChar_inj_lt : ∀ a < 10, ∀ b < 10, Nat.digitChar a = Nat.digitChar b → a = b := by
  decide

theorem natDigitsRev_inj : ∀ m n : Nat, natDigitsRev m = natDigitsRev n → m = n := by
  intro m
  induction m using Nat.strong_induction_on with
  | _ m ih =>
    intro n h
    rw [natDigitsRev_eq m, natDigitsRev_eq n] at h
    by_cases hm : m < 10 <;> by_cases hn : n < 10 <;> simp [hm, hn] at h
    · exact digitChar_inj_lt m hm n hn h
    · exact absurd h.2 (natDigitsRev_ne_nil _)
    · exact absurd h.2 (natDigitsRev_ne_nil _)
    · obtain ⟨h1, h2⟩ := h
      have hmod : m % 10 = n % 10 :=
        digitChar_inj_lt _ (Nat.mod_lt _ (by omega)) _ (Nat.mod_lt _ (by omega)) h1
      have hdiv : m / 10 = n / 10 :=
        ih (m / 10) (Nat.div_lt_self (by omega) (by omega)) _ h2
      omega

theorem natStr_inj {m n : Nat} (h : natStr m = natStr n) : m = n := by
  have hd : (natDigitsRev m).reverse = (natDigitsRev n).reverse := congrArg String.data h
  exact natDigitsRev_inj m n (List.reverse_injective hd)

theorem natStr_five : natStr 5 = "5" := by
  rw [natStr, natDigitsRev_eq]
  rfl

theorem strConcat_nil : strConcat [] = "" := rfl

theorem strConcat_cons (x : String) (l : List String) :
    strConcat (x :: l) = x ++ strConcat l := rfl

theorem str_empty_append (s : String) : "" ++ s = s := by
  apply String.ext
  simp [String.data_append]

theorem str_append_empty (s : String) : s ++ "" = s := by
  apply String.ext
  simp [String.data_append]

theorem str_append_assoc (a b c : String) : a ++ b ++ c = a ++ (b ++ c) := by
  apply String.ext
  simp [String.data_append]

theorem strConcat_append (a b : List String) :
    strConcat (a ++ b) = strConcat a ++ strConcat b := by
  induction a with
  | nil => simp [strConcat_nil, str_empty_append]
  | cons x t ihx => simp [strConcat_cons, ihx, str_append_assoc]

theorem str_append_cancel_left {a b c : String} (h : a ++ b = a ++ c) : b = c := by
  apply String.ext
  have hd := congrArg String.data h
  simp only [String.data_append] at hd
  exact List.append_cancel_left hd

theorem str_append_cancel_right {a b c : String} (h : a ++ c = b ++ c) : a = b := by
  apply String.ext
  have hd := congrArg String.data h
  simp only [String.data_append] at hd
  exact List.append_cancel_right hd

theorem str_mid_cancel {p s x y : String} (h : p ++ x ++ s = p ++ y ++ s) : x = y :=
  str_append_cancel_left (str_append_cancel_right h)

theorem keyLe_trans (key : α → String) (a b c : α)
    (h1 : keyLe key a b = true) (h2 : keyLe key b c = true) : keyLe key a c = true := by
  simp only [keyLe, decide_eq_true_eq] at *
  exact le_trans h1 h2

theorem keyLe_total (key : α → String) (a b : α) :
    (keyLe key a b || keyLe key b a) = true := by
  simp only [keyLe, Bool.or_eq_true, decide_eq_true_eq]
  exact le_total _ _

theorem sortByStringKey_perm (key : α → String) (l : List α) :
    (sortByStringKey key l).Perm l :=
  List.mergeSort_perm l _

theorem sortByStringKey_pairwise (key : α → String) (l : List α) :
    (sortByStringKey key l).Pairwise (fun a b => key a ≤ key b) := by
  have h := @List.sorted_mergeSort _ (keyLe key) (keyLe_trans key) (keyLe_total key) l
  exact h.imp fun hab => by simpa [keyLe, decide_eq_true_eq] using hab

theorem eq_of_perm_of_pairwise_nodupkeys (key : α → String) :
    ∀ {l₁ l₂ : List α}, l₁.Perm l₂ →
      l₁.Pairwise (fun a b => key a ≤ key b) →
      l₂.Pairwise (fun a b => key a ≤ key b) →
      (l₁.map key).Nodup → l₁ = l₂ := by
  intro l₁
  induction l₁ with
  | nil =>
    intro l₂ hp _ _ _
    exact hp.nil_eq
  | cons a t ih =>
    intro l₂ hp hs₁ hs₂ hnd
    have hnd0 : (key a :: t.map key).Nodup := by
      rw [List.map_cons] at hnd; exact hnd
    match l₂ with
    | [] => exact absurd hp.symm.nil_eq (by simp)
    | b :: s =>
      by_cases hab : a = b
      · subst hab
        have ht : t.Perm s := hp.cons_inv
        have := ih ht (List.pairwise_cons.mp hs₁).2 (List.pairwise_cons.mp hs₂).2
          (List.nodup_cons.mp hnd0).2
        rw [this]
      · exfalso
        have hamem : a ∈ b :: s := hp.mem_iff.mp (by simp)
        have has : a ∈ s := by
          rcases List.mem_cons.mp hamem with h | h
          · exact absurd h hab
          · exact h
        have hbmem : b ∈ a :: t := hp.symm.mem_iff.mp (by simp)
        have hbt : b ∈ t := by
          rcases List.mem_cons.mp hbmem with h | h
          · exact absurd h.symm hab
          · exact h
        have h1 : key a ≤ key b := (List.pairwise_cons.mp hs₁).1 b hbt
        have h2 : key b ≤ key a := (List.pairwise_cons.mp hs₂).1 a has
        have hk : key a = key b := le_antisymm h1 h2
        have hmem : key b ∈ t.map key := List.mem_map_of_mem key hbt
        exact (List.nodup_cons.mp hnd0).1 (hk ▸ hmem)

theorem sortByStringKey_eq (key : α → String) {l l' : List α} (hp : l.Perm l')
    (hs : l'.Pairwise (fun a b => key a ≤ key b)) (hnd : (l.map key).Nodup) :
    sortByStringKey key l = l' := by
  refine eq_of_perm_of_pairwise_nodupkeys key ((sortByStringKey_perm key l).trans hp)
    (sortByStringKey_pairwise key l) hs ?_
  have : ((sortByStringKey key l).map key).Perm (l.map key) :=
    (sortByStringKey_perm key l).map key
  exact this.nodup_iff.mpr hnd

theorem sortByStringKey_congr_perm (key : α → String) {l₁ l₂ : List α}
    (hp : l₁.Perm l₂) (hnd : (l₁.map key).Nodup) :
    sortByStringKey key l₁ = sortByStringKey key l₂ :=
  sortByStringKey_eq key (hp.trans (sortByStringKey_perm key l₂).symm)
    (sortByStringKey_pairwise key l₂) hnd

theorem sortByStringKey_map (key : α → String) (f : α → α) {l : List α}
    (hkey : ∀ x, key (f x) = key x) (hnd : (l.map key).Nodup) :
    sortByStringKey key (l.map f) = (sortByStringKey key l).map f := by
  refine sortByStringKey_eq key ?_ ?_ ?_
  · exact (sortByStringKey_perm key l).symm.map f
  · rw [List.pairwise_map]
    exact (sortByStringKey_pairwise key l).imp fun hab => by
      simpa [hkey] using hab
  · have : (l.map f).map key = l.map key := by
      rw [List.map_map]
      exact List.map_congr_left fun a _ => hkey a
    rw [this]
    exact hnd

theorem sortByStringKey_sorted_self (key : α → String) {l : List α}
    (hs : l.Pairwise (fun a b => key a ≤ key b)) (hnd : (l.map key).Nodup) :
    sortByStringKey key l = l :=
  sortByStringKey_eq key (List.Perm.refl l) hs hnd

theorem sliceLoop_length_le (relPath code : String) (step : Nat) :
    ∀ i acc, (acc : List Chunk).length ≤ 12 →
      (sliceLoop relPath code step i acc).length ≤ 13 := by
  intro i acc
  induction i, acc using sliceLoop.induct relPath code step with
  | case1 i acc hlt slice c hbig =>
    intro hacc
    rw [sliceLoop, if_pos hlt, if_pos hbig]
    simp only [List.length_append, List.length_cons, List.length_nil] at hbig ⊢
    omega
  | case2 i acc hlt slice c hbig ih =>
    intro hacc
    rw [sliceLoop, if_pos hlt, if_neg hbig]
    simp only [List.length_append, List.length_cons, List.length_nil] at hbig
    refine ih ?_
    simp only [List.length_append, List.length_cons, List.length_nil]
    omega
  | case3 i acc hlt =>
    intro hacc
    rw [sliceLoop, if_neg hlt]
    omega

theorem sliceLoop_length (relPath code : String) (step : Nat) (hstep : 0 < step) :
    ∀ i acc, (acc : List Chunk).length ≤ 12 →
      (sliceLoop relPath code step i acc).length =
        if i < code.length then min 13 (acc.length + 1 + (code.length - i - 1) / step)
        else acc.length := by
  intro i acc
  induction i, acc using sliceLoop.induct relPath code step with
  | case1 i acc hlt slice c hbig =>
    intro hacc
    rw [sliceLoop, if_pos hlt, if_pos hbig, if_pos hlt]
    simp only [List.length_append, List.length_cons, List.length_nil] at hbig ⊢
    generalize (code.length - i - 1) / step = q
    omega
  | case2 i acc hlt slice c hbig ih =>
    intro hacc
    rw [sliceLoop, if_pos hlt, if_neg hbig, if_pos hlt]
    simp only [List.length_append, List.length_cons, List.length_nil] at hbig
    rw [ih (by simp only [List.length_append, List.length_cons, List.length_nil]; omega)]
    by_cases hnext : i + step < code.length
    · rw [if_pos hnext]
      have harith : code.length - i - 1 = (code.length - (i + step) - 1) + step := by omega
      rw [harith, Nat.add_div_right _ hstep]
      simp only [List.length_append, List.length_cons, List.length_nil]
      omega
    · rw [if_neg hnext]
      have hz : (code.length - i - 1) / step = 0 := by
        apply Nat.div_eq_of_lt
        omega
      rw [hz]
      simp only [List.length_append, List.length_cons, List.length_nil]
      omega
  | case3 i acc hlt =>
    intro hacc
    rw [sliceLoop, if_neg hlt, if_neg hlt]

theorem bigSliceCode_length : bigSliceCode.length = 24577 := by
  rw [bigSliceCode, String.length_mk, List.length_replicate]

theorem snippet_cap (s : String) :
    (if 160 < s.length then String.mk (s.data.take 157) ++ "…" else s).length ≤ 160 := by
  split
  · rw [String.length_append, String.length_mk, List.length_take]
    have h1 : ("…" : String).length = 1 := rfl
    omega
  · next h => omega

theorem summarizeFailure_length_le (t : String) : (summarizeFailure t).length ≤ 160 := by
  rw [summarizeFailure]
  split
  · decide
  · exact snippet_cap _

theorem attemptGo_backend_count (obs : Nat → AttemptObs) :
    ∀ (l : List Nat) (ff : String) (content : Option String),
      (attemptGo obs l ff content).actions.count Effect.backend ≤ l.length := by
  intro l
  induction l with
  | nil => intro ff content; simp [attemptGo]
  | cons a rest ih =>
    intro ff content
    cases h : obs a with
    | noCode =>
      have hrec := ih "Model returned no code" content
      simp [attemptGo, h, List.count_cons]
      omega
    | diagnostics joined fmtd =>
      have hrec := ih joined content
      simp [attemptGo, h, List.count_cons]
      omega
    | noTests fmtd =>
      have hrec := ih "No tests detected after verification" content
      simp [attemptGo, h, List.count_cons]
      omega
    | runFailed output finalCode =>
      have hrec := ih
        (summarizeFailure (if output.isEmpty then "Jest run failed" else output))
        (some finalCode)
      simp [attemptGo, h, List.count_cons]
      omega
    | success finalCode tests hints =>
      simp [attemptGo, h, List.count_cons]

theorem attemptGo_not_wrote (obs : Nat → AttemptObs) :
    ∀ (l : List Nat) (ff : String) (content : Option String),
      (∀ a ∈ l, isSuccessObs (obs a) = false) →
      (attemptGo obs l ff content).wrote = false := by
  intro l
  induction l with
  | nil => intro ff content _; simp [attemptGo]
  | cons a rest ih =>
    intro ff content hfail
    cases h : obs a
    case success fc tests hints =>
      have := hfail a (by simp)
      rw [h] at this
      simp [isSuccessObs] at this
    all_goals
      simp [attemptGo, h]
      exact ih _ _ fun x hx => hfail x (by simp [hx])

theorem chunkSource_budget (relPath code : String) (maxTokens : Nat)
    (decls : List NamedDecl) :
    ∀ c ∈ chunkSource relPath code maxTokens decls, c.approxTokens ≤ maxTokens := by
  intro c hc
  rw [chunkSource] at hc
  split at hc
  · next h =>
    simp only [List.mem_singleton] at hc
    subst hc
    exact h
  · next h =>
    have := (List.mem_filter.mp hc).2
    simpa using this

theorem planWork_item_mem {files : List SourceFile} {ipt : String → Bool}
    {declsOf : SourceFile → List NamedDecl} {r : Renderer} {fw : Framework}
    {ctx : Nat} {item : WorkItem}
    (h : item ∈ (planWork files ipt declsOf r fw ctx).items) :
    ∃ f ∈ files, item.rel = f.rel ∧ item.originalTokens = estimateTokens f.text ∧
      64 ≤ estimateTokens f.text ∧
      (∀ c ∈ item.chunks, c ∈ chunkSource f.rel f.text ((max 1024 (ctx / 2)) - 768) (declsOf f)) ∧
      (item.chunks = [] → item.skipReason.isSome) := by
  rw [planWork] at h
  simp only [List.mem_filterMap] at h
  obtain ⟨f, hf, hsome⟩ := h
  refine ⟨f, hf, ?_⟩
  by_cases h64 : estimateTokens f.text < 64
  · rw [if_pos h64] at hsome
    cases hsome
  rw [if_neg h64] at hsome
  by_cases hpt : ipt f.text
  · rw [if_pos hpt] at hsome
    cases hsome
    refine ⟨rfl, rfl, by omega, by simp, by simp⟩
  rw [if_neg hpt] at hsome
  by_cases hempty : (chunkSource f.rel f.text (max 1024 (ctx / 2) - 768) (declsOf f)).isEmpty
  · rw [if_pos hempty] at hsome
    cases hsome
    refine ⟨rfl, rfl, by omega, by simp, by simp⟩
  · rw [if_neg hempty] at hsome
    cases hsome
    refine ⟨rfl, rfl, by omega, fun c hc => hc, fun hnil => ?_⟩
    have hnil' : chunkSource f.rel f.text (max 1024 (ctx / 2) - 768) (declsOf f) = [] := hnil
    rw [hnil'] at hempty
    simp at hempty

theorem takeWhile_all {p : Char → Bool} :
    ∀ {l : List Char}, (∀ x ∈ l, p x = true) → l.takeWhile p = l := by
  intro l
  induction l with
  | nil => intro _; rfl
  | cons a t ih =>
    intro h
    rw [List.takeWhile_cons, if_pos (h a (by simp)), ih fun x hx => h x (by simp [hx])]

theorem takeWhile_all_append {p : Char → Bool} {l : List Char}
    (hl : ∀ x ∈ l, p x = true) {y : Char} (hy : p y = false) (ys : List Char) :
    (l ++ y :: ys).takeWhile p = l := by
  induction l with
  | nil => simp [List.takeWhile_cons, hy]
  | cons a t ih =>
    rw [List.cons_append, List.takeWhile_cons, if_pos (hl a (by simp)),
      ih fun x hx => hl x (by simp [hx])]

theorem dropWhile_all_append {p : Char → Bool} {l : List Char}
    (hl : ∀ x ∈ l, p x = true) {y : Char} (hy : p y = false) (ys : List Char) :
    (l ++ y :: ys).dropWhile p = y :: ys := by
  induction l with
  | nil => simp [List.dropWhile_cons, hy]
  | cons a t ih =>
    rw [List.cons_append, List.dropWhile_cons, if_pos (hl a (by simp)),
      ih fun x hx => hl x (by simp [hx])]

theorem ne_slash_of_not_mem {l : List Char} (h : '/' ∉ l) :
    ∀ x ∈ l.reverse, (decide ¬x = '/') = true := by
  intro x hx
  simp only [decide_eq_true_eq]
  intro hxe
  exact h (hxe ▸ List.mem_reverse.mp hx)

theorem afterLastSlash_append {d b : List Char} (hb : '/' ∉ b) :
    afterLastSlash (d ++ '/' :: b) = b := by
  rw [afterLastSlash]
  have hrev : (d ++ '/' :: b).reverse = b.reverse ++ '/' :: d.reverse := by
    simp
  rw [hrev, takeWhile_all_append (ne_slash_of_not_mem hb) (by simp) d.reverse,
    List.reverse_reverse]

theorem afterLastSlash_no_slash {l : List Char} (h : '/' ∉ l) :
    afterLastSlash l = l := by
  rw [afterLastSlash, takeWhile_all (by
    intro x hx
    simp only [decide_eq_true_eq]
    intro hxe
    exact h (hxe ▸ List.mem_reverse.mp hx)), List.reverse_reverse]

theorem beforeLastSlash_append {d b : List Char} (hb : '/' ∉ b) :
    beforeLastSlash (d ++ '/' :: b) = d := by
  rw [beforeLastSlash]
  have hrev : (d ++ '/' :: b).reverse = b.reverse ++ '/' :: d.reverse := by
    simp
  rw [hrev, dropWhile_all_append (ne_slash_of_not_mem hb) (by simp) d.reverse]
  simp

theorem hasSlash_append (d b : List Char) : hasSlash (d ++ '/' :: b) = true := by
  simp [hasSlash]

theorem hasSlash_no {l : List Char} (h : '/' ∉ l) : hasSlash l = false := by
  simp only [hasSlash, List.any_eq_false, decide_eq_true_eq]
  intro x hx hxe
  exact h (hxe ▸ hx)

theorem recognized_ext_shape {e : String} (he : e ∈ recognizedExts) :
    ∃ x : List Char, e.data = '.' :: x ∧ x ≠ [] ∧ '.' ∉ x ∧ '/' ∉ e.data := by
  simp only [recognizedExts, List.mem_cons, List.mem_singleton, List.not_mem_nil, or_false] at he
  rcases he with rfl | rfl | rfl | rfl
  · exact ⟨['t', 's'], rfl, by decide, by decide, by decide⟩
  · exact ⟨['t', 's', 'x'], rfl, by decide, by decide, by decide⟩
  · exact ⟨['j', 's'], rfl, by decide, by decide, by decide⟩
  · exact ⟨['j', 's', 'x'], rfl, by decide, by decide, by decide⟩

theorem asciiLower_recognized {e : String} (he : e ∈ recognizedExts) :
    asciiLower e = e := by
  simp only [recognizedExts, List.mem_cons, List.mem_singleton, List.not_mem_nil, or_false] at he
  rcases he with rfl | rfl | rfl | rfl <;> decide

theorem pathExtname_eq {rel : String} {bn : List Char} {e : String}
    (hA : afterLastSlash rel.data = bn ++ e.data)
    (hbn : bn ≠ []) (he : e ∈ recognizedExts) :
    pathExtname rel = e := by
  obtain ⟨x, hx, hxnil, hxdot, _⟩ := recognized_ext_shape he
  rw [pathExtname, hA, hx]
  have hrev : (bn ++ '.' :: x).reverse = x.reverse ++ '.' :: bn.reverse := by
    simp
  have hxr : ∀ c ∈ x.reverse, (decide ¬c = '.') = true := by
    intro c hc
    simp only [decide_eq_true_eq]
    intro hce
    exact hxdot (hce ▸ List.mem_reverse.mp hc)
  rw [hrev, takeWhile_all_append hxr (by simp) bn.reverse,
    dropWhile_all_append hxr (by simp) bn.reverse]
  obtain ⟨c, t, hbnr⟩ : ∃ c t, bn.reverse = c :: t := by
    cases hb : bn.reverse with
    | nil => exact absurd (List.reverse_eq_nil_iff.mp hb) hbn
    | cons c t => exact ⟨c, t, rfl⟩
  rw [hbnr]
  apply String.ext
  simp [hx]

theorem pathBasename_eq {rel : String} {bn : List Char} {e : String}
    (hA : afterLastSlash rel.data = bn ++ e.data)
    (hbn : bn ≠ []) (he : e ∈ recognizedExts) :
    pathBasename rel e = String.mk bn := by
  obtain ⟨x, hx, _, _, _⟩ := recognized_ext_shape he
  rw [pathBasename, hA]
  have hnonempty : e.data ≠ [] := by rw [hx]; simp
  have hne : e.data ≠ bn ++ e.data := by
    intro hcontra
    have : ([] : List Char) ++ e.data = bn ++ e.data := by simpa using hcontra
    exact hbn (List.append_cancel_right this).symm
  have hsuf : e.data.isSuffixOf (bn ++ e.data) = true :=
    List.isSuffixOf_iff_suffix.mpr ⟨bn, rfl⟩
  rw [if_pos ⟨hnonempty, hne, hsuf⟩]
  congr 1
  have hlen : (bn ++ e.data).length = bn.length + e.data.length := by simp
  rw [hlen, Nat.add_sub_cancel, List.take_left]

theorem pathDirname_noDir {rel : String} (h : '/' ∉ rel.data) : pathDirname rel = "." := by
  rw [pathDirname, hasSlash_no h]
  simp

theorem pathDirname_dir {rel d : String} {b : List Char}
    (hdata : rel.data = d.data ++ '/' :: b) (hb : '/' ∉ b) : pathDirname rel = d := by
  rw [pathDirname, hdata, hasSlash_append]
  simp only [if_true]
  rw [beforeLastSlash_append hb]

theorem data_ne_nil_of_ne {s : String} (h : s ≠ "") : s.data ≠ [] := by
  intro hd
  exact h (String.ext hd)

theorem slash_split_inj {p1 p2 b1 b2 : List Char} (hb1 : '/' ∉ b1) (hb2 : '/' ∉ b2)
    (h : p1 ++ '/' :: b1 = p2 ++ '/' :: b2) : p1 = p2 ∧ b1 = b2 := by
  have hrev := congrArg List.reverse h
  have h1 : b1.reverse ++ '/' :: p1.reverse = b2.reverse ++ '/' :: p2.reverse := by
    simpa using hrev
  have htk := congrArg (List.takeWhile fun c => decide ¬c = '/') h1
  rw [takeWhile_all_append (ne_slash_of_not_mem hb1) (by simp) p1.reverse,
    takeWhile_all_append (ne_slash_of_not_mem hb2) (by simp) p2.reverse] at htk
  have hb : b1 = b2 := by
    have := congrArg List.reverse htk
    simpa using this
  subst hb
  exact ⟨List.append_cancel_right h, rfl⟩

theorem ext_cancel {u v : List Char} {e1 e2 : String}
    (he1 : e1 ∈ recognizedExts) (he2 : e2 ∈ recognizedExts)
    (h : u ++ e1.data = v ++ e2.data) : e1 = e2 ∧ u = v := by
  simp only [recognizedExts, List.mem_cons, List.mem_singleton, List.not_mem_nil,
    or_false] at he1 he2
  rcases he1 with rfl | rfl | rfl | rfl <;> rcases he2 with rfl | rfl | rfl | rfl <;>
    first
      | exact ⟨rfl, List.append_cancel_right h⟩
      | (exfalso
         have hbad := (List.append_inj' h rfl).2
         exact absurd hbad (by decide))
      | (exfalso
         have hg := congrArg List.getLast? h
         simp [List.getLast?_append] at hg)

theorem resolveOutPath_noDir (pr od : String) {base ext : String}
    (hbase : base ≠ "") (hslash : '/' ∉ base.data) (hext : ext ∈ recognizedExts)
    (hB : (if od = "" then pr else od) ≠ "") :
    (resolveOutPath pr od (base ++ ext)).data =
      (if od = "" then pr else od).data ++
        '/' :: ("__tests__".data ++ '/' :: (base.data ++ (".test".data ++ ext.data))) := by
  obtain ⟨x, hx, hxnil, hxdot, hxslash⟩ := recognized_ext_shape hext
  have hreldata : (base ++ ext).data = base.data ++ ext.data := String.data_append _ _
  have hnos : '/' ∉ (base ++ ext).data := by
    rw [hreldata]
    intro hm
    rcases List.mem_append.mp hm with hm | hm
    · exact hslash hm
    · exact hxslash hm
  have hAfter : afterLastSlash (base ++ ext).data = base.data ++ ext.data := by
    rw [afterLastSlash_no_slash hnos, hreldata]
  have hbn : base.data ≠ [] := data_ne_nil_of_ne hbase
  have hdir := pathDirname_noDir hnos
  have hextc := pathExtname_eq hAfter hbn hext
  have hbasec := pathBasename_eq hAfter hbn hext
  have htf : base ++ ".test" ++ ext ≠ "" := by
    intro hcontra
    have hd := congrArg String.data hcontra
    simp only [String.data_append] at hd
    rcases List.append_eq_nil.mp hd with ⟨hd1, _⟩
    exact hbn (List.append_eq_nil.mp hd1).1
  rw [resolveOutPath]
  simp only [hdir, hextc, hbasec, asciiLower_recognized hext, if_pos hext]
  have hmkbase : String.mk base.data = base := rfl
  rw [hmkbase]
  simp only [if_true]
  rw [pathJoin]
  simp [List.filter_cons, List.filter_nil, hB, htf, joinSegs, String.data_append, hx]

theorem resolveOutPath_dir (pr od : String) {d base ext : String}
    (hd : d ≠ "") (hdot : d ≠ ".") (hbase : base ≠ "") (hslash : '/' ∉ base.data)
    (hext : ext ∈ recognizedExts) (hB : (if od = "" then pr else od) ≠ "") :
    (resolveOutPath pr od (d ++ "/" ++ base ++ ext)).data =
      (if od = "" then pr else od).data ++
        '/' :: (d.data ++ '/' :: ("__tests__".data ++ '/' ::
          (base.data ++ (".test".data ++ ext.data)))) := by
  obtain ⟨x, hx, hxnil, hxdot, hxslash⟩ := recognized_ext_shape hext
  have hbe : '/' ∉ base.data ++ ext.data := by
    intro hm
    rcases List.mem_append.mp hm with hm | hm
    · exact hslash hm
    · exact hxslash hm
  have hreldata : (d ++ "/" ++ base ++ ext).data = d.data ++ '/' :: (base.data ++ ext.data) := by
    simp [String.data_append]
  have hAfter : afterLastSlash (d ++ "/" ++ base ++ ext).data = base.data ++ ext.data := by
    rw [hreldata]
    exact afterLastSlash_append hbe
  have hbn : base.data ≠ [] := data_ne_nil_of_ne hbase
  have hdir : pathDirname (d ++ "/" ++ base ++ ext) = d :=
    pathDirname_dir hreldata hbe
  have hextc := pathExtname_eq hAfter hbn hext
  have hbasec := pathBasename_eq hAfter hbn hext
  have htf : base ++ ".test" ++ ext ≠ "" := by
    intro hcontra
    have hcd := congrArg String.data hcontra
    simp only [String.data_append] at hcd
    rcases List.append_eq_nil.mp hcd with ⟨hd1, _⟩
    exact hbn (List.append_eq_nil.mp hd1).1
  rw [resolveOutPath]
  simp only [hdir, hextc, hbasec, asciiLower_recognized hext, if_pos hext]
  have hmkbase : String.mk base.data = base := rfl
  rw [hmkbase, if_neg hdot, pathJoin]
  simp [List.filter_cons, List.filter_nil, hB, hd, htf, joinSegs, String.data_append, hx]

theorem tail_analysis {b1 b2 t1 t2 : List Char} {e1 e2 : String}
    (hb1 : '/' ∉ b1) (hb2 : '/' ∉ b2)
    (he1 : e1 ∈ recognizedExts) (he2 : e2 ∈ recognizedExts)
    (h : t1 ++ '/' :: (b1 ++ (".test".data ++ e1.data)) =
         t2 ++ '/' :: (b2 ++ (".test".data ++ e2.data))) :
    t1 = t2 ∧ b1 = b2 ∧ e1 = e2 := by
  have h' : (t1 ++ '/' :: (b1 ++ ".test".data)) ++ e1.data =
      (t2 ++ '/' :: (b2 ++ ".test".data)) ++ e2.data := by
    simpa using h
  obtain ⟨hee, hu⟩ := ext_cancel he1 he2 h'
  have hu' : (t1 ++ '/' :: b1) ++ ".test".data = (t2 ++ '/' :: b2) ++ ".test".data := by
    simpa using hu
  have hv := List.append_cancel_right hu'
  obtain ⟨ht, hb⟩ := slash_split_inj hb1 hb2 hv
  exact ⟨ht, hb, hee⟩

theorem resolveOutPath_inj (pr od : String) (hB : (if od = "" then pr else od) ≠ "")
    {p q : RelParts} (hp : WfParts p) (hq : WfParts q) (hne : p ≠ q) :
    resolveOutPath pr od (relOfParts p) ≠ resolveOutPath pr od (relOfParts q) := by
  obtain ⟨pd, pb, pe⟩ := p
  obtain ⟨qd, qb, qe⟩ := q
  obtain ⟨hpb, hps, hpe, hpd⟩ := hp
  obtain ⟨hqb, hqs, hqe, hqd⟩ := hq
  intro heq
  apply hne
  have hTslash : '/' ∉ ("__tests__" : String).data := by decide
  cases pd with
  | none =>
    cases qd with
    | none =>
      have h1 : relOfParts ⟨none, pb, pe⟩ = pb ++ pe := rfl
      have h2 : relOfParts ⟨none, qb, qe⟩ = qb ++ qe := rfl
      rw [h1, h2] at heq
      have hd := congrArg String.data heq
      rw [resolveOutPath_noDir pr od hpb hps hpe hB,
        resolveOutPath_noDir pr od hqb hqs hqe hB] at hd
      have hd' : ((if od = "" then pr else od).data ++ '/' :: ("__tests__" : String).data) ++
          '/' :: (pb.data ++ (".test".data ++ pe.data)) =
          ((if od = "" then pr else od).data ++ '/' :: ("__tests__" : String).data) ++
          '/' :: (qb.data ++ (".test".data ++ qe.data)) := by
        simpa using hd
      obtain ⟨_, hbq, heq2⟩ := tail_analysis hps hqs hpe hqe hd'
      have hb' : pb = qb := String.ext hbq
      have he' : pe = qe := heq2
      rw [hb', he']
    | some d2 =>
      obtain ⟨hd2, hd2dot⟩ := hqd d2 rfl
      have h1 : relOfParts ⟨none, pb, pe⟩ = pb ++ pe := rfl
      have h2 : relOfParts ⟨some d2, qb, qe⟩ = d2 ++ "/" ++ qb ++ qe := rfl
      rw [h1, h2] at heq
      have hd := congrArg String.data heq
      rw [resolveOutPath_noDir pr od hpb hps hpe hB,
        resolveOutPath_dir pr od hd2 hd2dot hqb hqs hqe hB] at hd
      have hd' : ((if od = "" then pr else od).data ++ '/' :: ("__tests__" : String).data) ++
          '/' :: (pb.data ++ (".test".data ++ pe.data)) =
          ((if od = "" then pr else od).data ++ '/' :: (d2.data ++ '/' ::
            ("__tests__" : String).data)) ++
          '/' :: (qb.data ++ (".test".data ++ qe.data)) := by
        simpa using hd
      obtain ⟨ht, _, _⟩ := tail_analysis hps hqs hpe hqe hd'
      exfalso
      have ht2 := List.append_cancel_left ht
      have ht3 := List.cons_injective ht2
      have hlen := congrArg List.length ht3
      simp at hlen
  | some d1 =>
    obtain ⟨hd1, hd1dot⟩ := hpd d1 rfl
    cases qd with
    | none =>
      have h1 : relOfParts ⟨some d1, pb, pe⟩ = d1 ++ "/" ++ pb ++ pe := rfl
      have h2 : relOfParts ⟨none, qb, qe⟩ = qb ++ qe := rfl
      rw [h1, h2] at heq
      have hd := congrArg String.data heq
      rw [resolveOutPath_dir pr od hd1 hd1dot hpb hps hpe hB,
        resolveOutPath_noDir pr od hqb hqs hqe hB] at hd
      have hd' : ((if od = "" then pr else od).data ++ '/' :: (d1.data ++ '/' ::
            ("__tests__" : String).data)) ++
          '/' :: (pb.data ++ (".test".data ++ pe.data)) =
          ((if od = "" then pr else od).data ++ '/' :: ("__tests__" : String).data) ++
          '/' :: (qb.data ++ (".test".data ++ qe.data)) := by
        simpa using hd
      obtain ⟨ht, _, _⟩ := tail_analysis hps hqs hpe hqe hd'
      exfalso
      have ht2 := List.append_cancel_left ht
      have ht3 := List.cons_injective ht2
      have hlen := congrArg List.length ht3
      simp at hlen
    | some d2 =>
      obtain ⟨hd2, hd2dot⟩ := hqd d2 rfl
      have h1 : relOfParts ⟨some d1, pb, pe⟩ = d1 ++ "/" ++ pb ++ pe := rfl
      have h2 : relOfParts ⟨some d2, qb, qe⟩ = d2 ++ "/" ++ qb ++ qe := rfl
      rw [h1, h2] at heq
      have hd := congrArg String.data heq
      rw [resolveOutPath_dir pr od hd1 hd1dot hpb hps hpe hB,
        resolveOutPath_dir pr od hd2 hd2dot hqb hqs hqe hB] at hd
      have hd' : ((if od = "" then pr else od).data ++ '/' :: (d1.data ++ '/' ::
            ("__tests__" : String).data)) ++
          '/' :: (pb.data ++ (".test".data ++ pe.data)) =
          ((if od = "" then pr else od).data ++ '/' :: (d2.data ++ '/' ::
            ("__tests__" : String).data)) ++
          '/' :: (qb.data ++ (".test".data ++ qe.data)) := by
        simpa using hd
      obtain ⟨ht, hbq, heq2⟩ := tail_analysis hps hqs hpe hqe hd'
      have ht2 := List.append_cancel_left ht
      have ht3 := List.cons_injective ht2
      obtain ⟨hdd, _⟩ := slash_split_inj hTslash hTslash ht3
      have hd' : d1 = d2 := String.ext hdd
      have hb' : pb = qb := String.ext hbq
      have he' : pe = qe := heq2
      rw [hd', hb', he']

theorem kindStr_inj {k1 k2 : ChunkKind} (h : kindStr k1 = kindStr k2) : k1 = k2 := by
  cases k1 <;> cases k2 <;> first | rfl | exact absurd h (by decide)

theorem kindStr_no_bar (k : ChunkKind) : '|' ∉ (kindStr k).data := by
  cases k <;> decide

theorem ne_sep_of_not_mem' {sep : Char} {l : List Char} (h : sep ∉ l) :
    ∀ x ∈ l, (decide ¬x = sep) = true := by
  intro x hx
  simp only [decide_eq_true_eq]
  intro hxe
  exact h (hxe ▸ hx)

theorem sep_split_left {sep : Char} {p1 p2 t1 t2 : List Char}
    (hp1 : sep ∉ p1) (hp2 : sep ∉ p2) (h : p1 ++ sep :: t1 = p2 ++ sep :: t2) :
    p1 = p2 ∧ t1 = t2 := by
  have h1 := congrArg (List.takeWhile fun c => decide ¬c = sep) h
  rw [takeWhile_all_append (ne_sep_of_not_mem' hp1) (by simp) t1,
    takeWhile_all_append (ne_sep_of_not_mem' hp2) (by simp) t2] at h1
  subst h1
  exact ⟨rfl, List.cons_injective (List.append_cancel_left h)⟩

theorem chunkRec_fields {c c' : Chunk} (hid : c'.id = c.id) (h : chunkRec c' = chunkRec c) :
    c'.kind = c.kind ∧ c'.approxTokens = c.approxTokens := by
  rw [chunkRec, chunkRec, hid] at h
  have hd := congrArg String.data h
  simp only [String.data_append] at hd
  have hd' : c.id.data ++ '|' :: ((kindStr c'.kind).data ++ '|' :: (natStr c'.approxTokens).data) =
      c.id.data ++ '|' :: ((kindStr c.kind).data ++ '|' :: (natStr c.approxTokens).data) := by
    simpa using hd
  have h2 := List.cons_injective (List.append_cancel_left hd')
  obtain ⟨hk, ht⟩ := sep_split_left (kindStr_no_bar _) (kindStr_no_bar _) h2
  exact ⟨kindStr_inj (String.ext hk), natStr_inj (String.ext ht)⟩

theorem itemSerial_chunks_of_eq (i i' : WorkItem) (hrel : i'.rel = i.rel)
    (hot : i'.originalTokens = i.originalTokens) (hskip : i'.skipReason = i.skipReason)
    (hlen : i'.chunks.length = i.chunks.length) (h : itemSerial i' = itemSerial i) :
    strConcat ((sortByStringKey Chunk.id i'.chunks).map chunkRec) =
      strConcat ((sortByStringKey Chunk.id i.chunks).map chunkRec) := by
  rw [itemSerial, itemSerial, hrel, hot, hskip, hlen] at h
  exact str_append_cancel_left h

theorem strConcat_map_mid (A B : List Chunk) (c : Chunk) :
    strConcat ((A ++ c :: B).map chunkRec) =
      strConcat (A.map chunkRec) ++ (chunkRec c ++ strConcat (B.map chunkRec)) := by
  rw [List.map_append, strConcat_append, List.map_cons, strConcat_cons]

theorem itemSerial_replace {i0 : WorkItem} {c0 c0' : Chunk}
    (hnd : (i0.chunks.map Chunk.id).Nodup) (hc0 : c0 ∈ i0.chunks) (hid : c0'.id = c0.id)
    (h : itemSerial { i0 with chunks := i0.chunks.map fun c => if c = c0 then c0' else c } =
      itemSerial i0) :
    chunkRec c0' = chunkRec c0 := by
  have hkey : ∀ x : Chunk, Chunk.id (if x = c0 then c0' else x) = Chunk.id x := by
    intro x
    by_cases hx : x = c0
    · rw [if_pos hx, hx, hid]
    · rw [if_neg hx]
  have hsort := sortByStringKey_map Chunk.id (fun c => if c = c0 then c0' else c) hkey hnd
  have hmem : c0 ∈ sortByStringKey Chunk.id i0.chunks :=
    ((sortByStringKey_perm Chunk.id i0.chunks).mem_iff).mpr hc0
  obtain ⟨A, B, hAB⟩ := List.append_of_mem hmem
  have hndsorted : (sortByStringKey Chunk.id i0.chunks).Nodup := by
    refine List.Nodup.of_map Chunk.id ?_
    exact ((sortByStringKey_perm Chunk.id i0.chunks).map Chunk.id).nodup_iff.mpr hnd
  rw [hAB] at hndsorted
  have hc0A : c0 ∉ A := by
    intro hmemA
    exact (List.disjoint_of_nodup_append hndsorted) hmemA (by simp)
  have hc0B : c0 ∉ B := by
    have := (List.nodup_append.mp hndsorted).2.1
    exact (List.nodup_cons.mp this).1
  have hmapAB : (A ++ c0 :: B).map (fun c => if c = c0 then c0' else c) = A ++ c0' :: B := by
    rw [List.map_append, List.map_cons, if_pos rfl]
    have hA : A.map (fun c => if c = c0 then c0' else c) = A.map id :=
      List.map_congr_left fun a ha =>
        if_neg (fun hcontra : a = c0 => hc0A (hcontra ▸ ha))
    have hBm : B.map (fun c => if c = c0 then c0' else c) = B.map id :=
      List.map_congr_left fun a ha =>
        if_neg (fun hcontra : a = c0 => hc0B (hcontra ▸ ha))
    rw [hA, hBm, List.map_id, List.map_id]
  have hchl := itemSerial_chunks_of_eq i0
    { i0 with chunks := i0.chunks.map fun c => if c = c0 then c0' else c } rfl rfl rfl
    (by simp) h
  have hchl' : strConcat ((sortByStringKey Chunk.id
        (i0.chunks.map fun c => if c = c0 then c0' else c)).map chunkRec) =
      strConcat ((sortByStringKey Chunk.id i0.chunks).map chunkRec) := hchl
  rw [hsort, hAB, hmapAB, strConcat_map_mid, strConcat_map_mid] at hchl'
  exact str_mid_cancel (by
    rw [← str_append_assoc, ← str_append_assoc] at hchl'
    exact hchl')

theorem itemSerial_canon {it : WorkItem} (hnd : (it.chunks.map Chunk.id).Nodup) :
    itemSerial (canonItem it) = itemSerial it := by
  rw [itemSerial, itemSerial, canonItem]
  have hlen : (sortByStringKey Chunk.id it.chunks).length = it.chunks.length :=
    (sortByStringKey_perm Chunk.id it.chunks).length_eq
  have hidem : sortByStringKey Chunk.id (sortByStringKey Chunk.id it.chunks) =
      sortByStringKey Chunk.id it.chunks :=
    sortByStringKey_sorted_self Chunk.id (sortByStringKey_pairwise Chunk.id it.chunks)
      (((sortByStringKey_perm Chunk.id it.chunks).map Chunk.id).nodup_iff.mpr hnd)
  simp only [hlen, hidem]

theorem canonItem_congr {a b : WorkItem} (hab : ItemPerm a b)
    (hnd : (a.chunks.map Chunk.id).Nodup) : canonItem a = canonItem b := by
  obtain ⟨hrel, hot, hskip, hchunks⟩ := hab
  have hsort := sortByStringKey_congr_perm Chunk.id hchunks hnd
  cases a
  cases b
  simp_all [canonItem]

theorem forall₂_map_canon {l m : List WorkItem} (hf : List.Forall₂ ItemPerm l m)
    (hids : ∀ it ∈ l, (it.chunks.map Chunk.id).Nodup) :
    l.map canonItem = m.map canonItem := by
  induction hf with
  | nil => rfl
  | cons hab hrest ih =>
    simp only [List.map_cons]
    rw [canonItem_congr hab (hids _ (by simp)), ih fun it hit => hids it (by simp [hit])]

theorem forall₂_rels {l m : List WorkItem} (hf : List.Forall₂ ItemPerm l m) :
    l.map WorkItem.rel = m.map WorkItem.rel := by
  induction hf with
  | nil => rfl
  | cons hab hrest ih =>
    simp only [List.map_cons, ih]
    rw [hab.1]

theorem forall₂_ids_nodup {l m : List WorkItem} (hf : List.Forall₂ ItemPerm l m)
    (hids : ∀ it ∈ l, (it.chunks.map Chunk.id).Nodup) :
    ∀ it ∈ m, (it.chunks.map Chunk.id).Nodup := by
  induction hf with
  | nil => intro it hit; cases hit
  | cons hab hrest ih =>
    intro it hit
    rcases List.mem_cons.mp hit with rfl | hit
    · exact ((hab.2.2.2.map Chunk.id).nodup_iff).mp (hids _ (by simp))
    · exact ih (fun x hx => hids x (by simp [hx])) it hit

theorem sigBody_canon (l : List WorkItem) (hrels : (l.map WorkItem.rel).Nodup)
    (hids : ∀ it ∈ l, (it.chunks.map Chunk.id).Nodup) :
    strConcat ((sortByStringKey WorkItem.rel (l.map canonItem)).map itemSerial) =
      strConcat ((sortByStringKey WorkItem.rel l).map itemSerial) := by
  rw [sortByStringKey_map WorkItem.rel canonItem (fun x => rfl) hrels]
  rw [List.map_map]
  congr 1
  refine List.map_congr_left fun it hit => ?_
  have hmem : it ∈ l := (sortByStringKey_perm WorkItem.rel l).mem_iff.mp hit
  exact itemSerial_canon (hids it hmem)

theorem computePlanSignature_perm {p q : WorkPlan} (hnd : PlanKeysNodup p)
    (hperm : PlanPerm p q) : computePlanSignature p = computePlanSignature q := by
  obtain ⟨hb, hr, hf, mid, hforall, hmidperm⟩ := hperm
  obtain ⟨hrels, hids⟩ := hnd
  have hmidrels : mid.map WorkItem.rel = p.items.map WorkItem.rel :=
    (forall₂_rels hforall).symm
  have hmidrelsnd : (mid.map WorkItem.rel).Nodup := hmidrels ▸ hrels
  have hmidids := forall₂_ids_nodup hforall hids
  rw [computePlanSignature, computePlanSignature, hb, hr, hf]
  congr 1
  have h1 := (sigBody_canon p.items hrels hids).symm
  have h2 := sigBody_canon mid hmidrelsnd hmidids
  have h3 : p.items.map canonItem = mid.map canonItem := forall₂_map_canon hforall hids
  have h4 : sortByStringKey WorkItem.rel mid = sortByStringKey WorkItem.rel q.items :=
    sortByStringKey_congr_perm WorkItem.rel hmidperm hmidrelsnd
  calc strConcat ((sortByStringKey WorkItem.rel p.items).map itemSerial)
      = strConcat ((sortByStringKey WorkItem.rel (p.items.map canonItem)).map itemSerial) := h1
    _ = strConcat ((sortByStringKey WorkItem.rel (mid.map canonItem)).map itemSerial) := by
        rw [h3]
    _ = strConcat ((sortByStringKey WorkItem.rel mid).map itemSerial) := h2
    _ = strConcat ((sortByStringKey WorkItem.rel q.items).map itemSerial) := by rw [h4]

theorem planSig_replace {p : WorkPlan} {i0 : WorkItem} {c0 c0' : Chunk}
    (hnd : PlanKeysNodup p) (hi : i0 ∈ p.items) (hc : c0 ∈ i0.chunks)
    (hid : c0'.id = c0.id)
    (h : computePlanSignature (replaceChunk p i0 c0 c0') = computePlanSignature p) :
    chunkRec c0' = chunkRec c0 := by
  obtain ⟨hrels, hids⟩ := hnd
  have hkey : ∀ x : WorkItem, WorkItem.rel
      (if x = i0 then { x with chunks := x.chunks.map fun c => if c = c0 then c0' else c }
       else x) = WorkItem.rel x := by
    intro x
    by_cases hx : x = i0
    · rw [if_pos hx]
    · rw [if_neg hx]
  have hsort := sortByStringKey_map WorkItem.rel
    (fun it => if it = i0 then { it with chunks := it.chunks.map fun c => if c = c0 then c0' else c }
     else it) hkey hrels
  have hmem : i0 ∈ sortByStringKey WorkItem.rel p.items :=
    (sortByStringKey_perm WorkItem.rel p.items).mem_iff.mpr hi
  obtain ⟨A, B, hAB⟩ := List.append_of_mem hmem
  have hndsorted : (sortByStringKey WorkItem.rel p.items).Nodup := by
    refine List.Nodup.of_map WorkItem.rel ?_
    exact ((sortByStringKey_perm WorkItem.rel p.items).map WorkItem.rel).nodup_iff.mpr hrels
  rw [hAB] at hndsorted
  have hi0A : i0 ∉ A := by
    intro hmemA
    exact (List.disjoint_of_nodup_append hndsorted) hmemA (by simp)
  have hi0B : i0 ∉ B := by
    have := (List.nodup_append.mp hndsorted).2.1
    exact (List.nodup_cons.mp this).1
  have hmapAB : (A ++ i0 :: B).map
      (fun it => if it = i0 then { it with chunks := it.chunks.map fun c => if c = c0 then c0' else c }
       else it) =
      A ++ ({ i0 with chunks := i0.chunks.map fun c => if c = c0 then c0' else c }) :: B := by
    rw [List.map_append, List.map_cons, if_pos rfl]
    have hA : A.map (fun it => if it = i0 then
        { it with chunks := it.chunks.map fun c => if c = c0 then c0' else c } else it) = A.map id :=
      List.map_congr_left fun a ha =>
        if_neg (fun hcontra : a = i0 => hi0A (hcontra ▸ ha))
    have hBm : B.map (fun it => if it = i0 then
        { it with chunks := it.chunks.map fun c => if c = c0 then c0' else c } else it) = B.map id :=
      List.map_congr_left fun a ha =>
        if_neg (fun hcontra : a = i0 => hi0B (hcontra ▸ ha))
    rw [hA, hBm, List.map_id, List.map_id]
  rw [computePlanSignature, computePlanSignature, replaceChunk] at h
  have hbody := str_append_cancel_left h
  have hbody' : strConcat ((sortByStringKey WorkItem.rel (p.items.map
      (fun it => if it = i0 then { it with chunks := it.chunks.map fun c => if c = c0 then c0' else c }
       else it))).map itemSerial) =
      strConcat ((sortByStringKey WorkItem.rel p.items).map itemSerial) := hbody
  rw [hsort, hAB, hmapAB] at hbody'
  have hmidA : strConcat ((A ++ ({ i0 with chunks := i0.chunks.map fun c => if c = c0 then c0' else c }) :: B).map itemSerial) =
      strConcat (A.map itemSerial) ++
        (itemSerial { i0 with chunks := i0.chunks.map fun c => if c = c0 then c0' else c } ++
          strConcat (B.map itemSerial)) := by
    rw [List.map_append, strConcat_append, List.map_cons, strConcat_cons]
  have hmidB : strConcat ((A ++ i0 :: B).map itemSerial) =
      strConcat (A.map itemSerial) ++ (itemSerial i0 ++ strConcat (B.map itemSerial)) := by
    rw [List.map_append, strConcat_append, List.map_cons, strConcat_cons]
  rw [hmidA, hmidB] at hbody'
  have hiser : itemSerial { i0 with chunks := i0.chunks.map fun c => if c = c0 then c0' else c } =
      itemSerial i0 :=
    str_mid_cancel (by
      rw [← str_append_assoc, ← str_append_assoc] at hbody'
      exact hbody')
  exact itemSerial_replace (hids i0 hi) hc hid hiser

theorem completedStatus_true (s : ChunkStatus) : completedStatus s = true := by
  cases s <;> rfl

theorem sortByStringKey_singleton (key : α → String) (x : α) :
    sortByStringKey key [x] = [x] :=
  sortByStringKey_eq key (List.Perm.refl _) (by simp) (by simp)

/-- C5: every chunk of a `planWork` item respects the chunking budget
`usable − 768` passed to `chunkSource` (over-budget chunks are filtered out);
an item whose chunk list is empty carries a skip reason; and every eligible
file (at least 64 estimated tokens, not types-only) whose `chunkSource`
result is emptied by the budget filter does appear in the plan, as a
`WorkItem` with zero chunks and the skip reason
`"Too large to chunk under budget"`. -/
theorem planWork_chunks_within_budget (files : List SourceFile) (ipt : String → Bool)
    (declsOf : SourceFile → List NamedDecl) (r : Renderer) (fw : Framework) (ctx : Nat) :
    (∀ item ∈ (planWork files ipt declsOf r fw ctx).items,
      (∀ c ∈ item.chunks, c.approxTokens ≤ (max 1024 (ctx / 2)) - 768) ∧
      (item.chunks = [] → item.skipReason.isSome)) ∧
    (∀ f ∈ files, 64 ≤ estimateTokens f.text → ipt f.text = false →
      chunkSource f.rel f.text ((max 1024 (ctx / 2)) - 768) (declsOf f) = [] →
      ({ rel := f.rel, originalTokens := estimateTokens f.text, chunks := []
         skipReason := some "Too large to chunk under budget" } : WorkItem) ∈
        (planWork files ipt declsOf r fw ctx).items) := by
  refine ⟨?_, ?_⟩
  · intro item hitem
    obtain ⟨f, _, _, _, _, hchunks, hskip⟩ := planWork_item_mem hitem
    exact ⟨fun c hc => chunkSource_budget _ _ _ _ c (hchunks c hc), hskip⟩
  · intro f hf h64 hty hemp
    simp only [planWork, List.mem_filterMap]
    refine ⟨f, hf, ?_⟩
    rw [if_neg (by omega), if_neg (by rw [hty]; exact Bool.false_ne_true),
      if_pos (by rw [hemp]; rfl)]

set_option maxRecDepth 40000 in
/-- Witness for C5: a 65-token file planned under a 4096-token context whose
single chunk respects the budget, and a 257-token declaration-only file
planned under a 100-token context (budget 256) whose only declaration chunk
is filtered out, so it appears as a zero-chunk skipped item. -/
theorem planWork_chunks_within_budget_witness :
    (⟨"a.ts#module", String.mk (List.replicate 260 'a'), ChunkKind.module,
        65⟩ : Chunk).approxTokens ≤ (max 1024 (4096 / 2)) - 768 ∧
    (⟨"b.ts", 257, [], some "Too large to chunk under budget"⟩ : WorkItem) ∈
      (planWork [⟨"b.ts", String.mk (List.replicate 1025 'a')⟩] (fun _ => false)
        (fun f => [⟨"useBig", f.text⟩]) Renderer.rtlWeb Framework.jest 100).items := by
  refine ⟨?_, ?_⟩
  · exact ((planWork_chunks_within_budget
      [⟨"a.ts", String.mk (List.replicate 260 'a')⟩] (fun _ => false) (fun _ => [])
      Renderer.rtlWeb Framework.jest 4096).1
      ⟨"a.ts", 65,
        [⟨"a.ts#module", String.mk (List.replicate 260 'a'), ChunkKind.module, 65⟩], none⟩
      (by decide)).1 _ (by decide)
  · exact (planWork_chunks_within_budget
      [⟨"b.ts", String.mk (List.replicate 1025 'a')⟩] (fun _ => false)
      (fun f => [⟨"useBig", f.text⟩]) Renderer.rtlWeb Framework.jest 100).2
      ⟨"b.ts", String.mk (List.replicate 1025 'a')⟩ (by decide) (by decide) rfl (by decide)

/-- C7 counterexample: a scanned file whose estimated token count is below the
minimum-size threshold 64 produces no `WorkItem` at all — the plan's item list
is empty, so no terminal `WorkItem` with a skip reason exists for it. -/
theorem planWork_small_file_counterexample :
    estimateTokens "x" < 64 ∧
    (planWork [⟨"a.ts", "x"⟩] (fun _ => false) (fun _ => [])
      Renderer.rtlWeb Framework.jest 4096).items = [] := by
  exact ⟨by decide, by decide⟩

/-- C7 amended: files below the 64-token minimum are silently dropped by
`planWork` (no `WorkItem`, no skip reason): every produced item stems from a
scanned file whose token estimate is at least 64 and records that estimate. -/
theorem planWork_small_file_amended (files : List SourceFile) (ipt : String → Bool)
    (declsOf : SourceFile → List NamedDecl) (r : Renderer) (fw : Framework) (ctx : Nat) :
    ∀ item ∈ (planWork files ipt declsOf r fw ctx).items,
      64 ≤ item.originalTokens ∧
      ∃ f ∈ files, item.rel = f.rel ∧ item.originalTokens = estimateTokens f.text := by
  intro item hitem
  obtain ⟨f, hf, hrel, hot, h64, _, _⟩ := planWork_item_mem hitem
  exact ⟨hot ▸ h64, f, hf, hrel, hot⟩

set_option maxRecDepth 8000 in
/-- Witness for the amended C7 at a concrete 65-token file. -/
theorem planWork_small_file_amended_witness :
    64 ≤ (⟨"a.ts", 65,
        [⟨"a.ts#module", String.mk (List.replicate 260 'a'), ChunkKind.module, 65⟩],
        none⟩ : WorkItem).originalTokens := by
  exact (planWork_small_file_amended
    [⟨"a.ts", String.mk (List.replicate 260 'a')⟩] (fun _ => false) (fun _ => [])
    Renderer.rtlWeb Framework.jest 4096
    ⟨"a.ts", 65, [⟨"a.ts#module", String.mk (List.replicate 260 'a'), ChunkKind.module, 65⟩], none⟩
    (by decide)).1

/-- C8 counterexample: on a 24577-character declaration-free source chunked at
`maxTokens = 600`, `chunkSource` takes the slicing fallback (token estimate
6145 exceeds the budget, no declaration chunks) and that fallback produces
13 slice chunks, not at most 12: the loop breaks only after the 13th push. -/
theorem sliceFallback_counterexample :
    ¬ (estimateTokens bigSliceCode ≤ 600) ∧
    declChunks "f.ts" [] = [] ∧
    (sliceLoop "f.ts" bigSliceCode ((max 512 (600 - 512)) * 4) 0 []).length = 13 := by
  refine ⟨?_, rfl, ?_⟩
  · rw [estimateTokens, bigSliceCode_length]
    norm_num
  · rw [sliceLoop_length "f.ts" bigSliceCode ((max 512 (600 - 512)) * 4) (by norm_num) 0 []
      (by simp), bigSliceCode_length]
    norm_num

/-- C8 amended: the slicing fallback of `chunkSource` produces at most 13
slice chunks (before the over-budget post-filter). -/
theorem sliceFallback_amended (relPath code : String) (maxTokens : Nat) :
    (sliceLoop relPath code ((max 512 (maxTokens - 512)) * 4) 0 []).length ≤ 13 :=
  sliceLoop_length_le relPath code _ 0 [] (by simp)

/-- C9: `loadRunState` never fails for any file content — a missing file, any
other read error, an unparseable file, a falsy parse result or a version
mismatch all yield `none` — and a loaded state whose plan signature, mode or
total chunk count differs from the current plan is judged incompatible by
`isStateCompatible` and discarded (not resumed) by the CLI's resume
decision. -/
theorem loadRunState_total_and_validated :
    (∀ parse, loadRunState ReadResult.enoent parse = none) ∧
    (∀ parse, loadRunState ReadResult.ioError parse = none) ∧
    (∀ parse data, parse data = ParsedState.throwsErr →
      loadRunState (ReadResult.ok data) parse = none) ∧
    (∀ parse data, parse data = ParsedState.nullish →
      loadRunState (ReadResult.ok data) parse = none) ∧
    (∀ parse data v st, parse data = ParsedState.object v st → v ≠ some 1 →
      loadRunState (ReadResult.ok data) parse = none) ∧
    (∀ st sig mode n,
      (st.planSignature ≠ sig ∨ st.mode ≠ mode ∨ st.totals.totalChunks ≠ n) →
      isStateCompatible st sig mode n = false ∧
      resumeDecision (some st) sig mode n = none) := by
  refine ⟨fun parse => rfl, fun parse => rfl, ?_, ?_, ?_, ?_⟩
  · intro parse data h
    rw [loadRunState, h]
  · intro parse data h
    rw [loadRunState, h]
  · intro parse data v st h hv
    rw [loadRunState, h]
    exact if_neg hv
  · intro st sig mode n h
    have hcompat : isStateCompatible st sig mode n = false := by
      rw [isStateCompatible]
      rcases h with h | h | h
      · by_cases hv : st.version ≠ 1
        · rw [if_pos hv]
        · rw [if_neg hv, if_pos h]
      · by_cases hv : st.version ≠ 1
        · rw [if_pos hv]
        · rw [if_neg hv]
          by_cases hs : st.planSignature ≠ sig
          · rw [if_pos hs]
          · rw [if_neg hs, if_pos h]
      · by_cases hv : st.version ≠ 1
        · rw [if_pos hv]
        · rw [if_neg hv]
          by_cases hs : st.planSignature ≠ sig
          · rw [if_pos hs]
          · rw [if_neg hs]
            by_cases hm : st.mode ≠ mode
            · rw [if_pos hm]
            · rw [if_neg hm, if_pos h]
    refine ⟨hcompat, ?_⟩
    rw [resumeDecision, hcompat]
    simp

/-- Witness for C9 at a concrete incompatible state. -/
theorem loadRunState_total_and_validated_witness :
    loadRunState ReadResult.enoent (fun _ => ParsedState.nullish) = none ∧
    isStateCompatible
      ⟨1, "sigA", RunMode.basic, ⟨0, 0, 0, 0, 5⟩, [], 0, 0⟩ "sigB" RunMode.basic 5 = false := by
  refine ⟨loadRunState_total_and_validated.1 _, ?_⟩
  exact (loadRunState_total_and_validated.2.2.2.2.2
    ⟨1, "sigA", RunMode.basic, ⟨0, 0, 0, 0, 5⟩, [], 0, 0⟩ "sigB" RunMode.basic 5
    (Or.inl (by decide))).1

/-- C10: `getCompletedChunkKeys` returns exactly the recorded chunk keys —
every stored status (`write`, `skip`, `exists`) passes its filter, so an
abandoned (`skip`) chunk is included — and both generation paths, basic and
agent, do nothing at all for a chunk whose key is in the resume set: no
events, no side effects (in particular no backend calls), file untouched. -/
theorem completedChunkKeys_and_resume_skip :
    (∀ (st : StoredRunState) (key : String),
      key ∈ getCompletedChunkKeys st ↔
        ∃ entry ∈ st.perFile, ∃ cs : StoredChunkState, (key, cs) ∈ entry.2) ∧
    (∀ pr od force rel chunk existing obs maxFixLoops,
      processChunkBasic pr od force rel chunk existing true obs maxFixLoops =
        { events := [], actions := [], outPath := resolveOutPath pr od rel
          fileContent := existing }) ∧
    (∀ od force rel chunk existing maxToolCalls turns genCode verify reviewCalls review
        tests hints,
      processChunkAgent od force rel chunk existing true maxToolCalls turns genCode verify
          reviewCalls review tests hints =
        { events := [], actions := [], outPath := resolveOutPathAgent od rel
          fileContent := existing }) := by
  refine ⟨?_, ?_, ?_⟩
  · intro st key
    simp only [getCompletedChunkKeys, List.mem_flatMap, List.mem_map, List.mem_filter]
    constructor
    · rintro ⟨entry, hentry, ⟨⟨k, cs⟩, ⟨hmem, _⟩, hk⟩⟩
      exact ⟨entry, hentry, cs, hk ▸ hmem⟩
    · rintro ⟨entry, hentry, cs, hmem⟩
      exact ⟨entry, hentry, ⟨key, cs⟩, ⟨hmem, completedStatus_true _⟩, rfl⟩
  · intro pr od force rel chunk existing obs maxFixLoops
    rfl
  · intro od force rel chunk existing maxToolCalls turns genCode verify reviewCalls
      review tests hints
    rfl

/-- Witness for C10: a chunk recorded with `skip` status is in the resume set,
and a resumed chunk produces no events in the basic path. -/
theorem completedChunkKeys_and_resume_skip_witness :
    "a.ts::c1" ∈ getCompletedChunkKeys
      ⟨1, "s", RunMode.basic, ⟨0, 1, 0, 1, 1⟩,
        [("a.ts", [("a.ts::c1", ⟨ChunkStatus.skip, none, none, none, 0⟩)])], 0, 0⟩ ∧
    (processChunkBasic "r" "" false "a.ts" fixChunk none true (fun _ => AttemptObs.noCode)
      3).events = [] := by
  refine ⟨?_, ?_⟩
  · exact (completedChunkKeys_and_resume_skip.1 _ "a.ts::c1").mpr
      ⟨("a.ts", [("a.ts::c1", ⟨ChunkStatus.skip, none, none, none, 0⟩)]), by decide,
        ⟨ChunkStatus.skip, none, none, none, 0⟩, by decide⟩
  · rw [completedChunkKeys_and_resume_skip.2.1 "r" "" false "a.ts" fixChunk none
      (fun _ => AttemptObs.noCode) 3]

/-- The shape of `processChunkBasic` when the chunk is actually attempted
(not resumed, not short-circuited by an existing file) and no attempt
succeeds: the partial file is removed and a summarising `skip` event ends the
run. -/
theorem processChunkBasic_abandon (projectRoot outDir : String) (force : Bool)
    (rel : String) (chunk : Chunk) (existingContent : Option String)
    (obs : Nat → AttemptObs) (maxFixLoops : Nat)
    (hrun : ¬ (¬ force = true ∧ existingContent.isSome = true))
    (hw : (attemptLoop obs maxFixLoops existingContent).wrote = false) :
    processChunkBasic projectRoot outDir force rel chunk existingContent false obs
        maxFixLoops =
      { events := [⟨.start, rel, some chunk.id, some (natStr chunk.approxTokens)⟩,
          ⟨.skip, rel, some chunk.id,
            some ("Failed after " ++ natStr maxFixLoops ++ " attempts: " ++
              summarizeFailure (attemptLoop obs maxFixLoops existingContent).finalFailure)⟩]
        actions := (if force = true then [] else [Effect.checkExists]) ++
          (attemptLoop obs maxFixLoops existingContent).actions ++ [Effect.removeFile]
        outPath := resolveOutPath projectRoot outDir rel
        fileContent := none } := by
  simp only [processChunkBasic, Bool.false_eq_true, if_false, hw]
  rw [if_neg hrun]

/-- C1: the basic generator performs at most `maxFixLoops` backend attempts
per chunk, and when no attempt succeeds (in a run that actually attempts the
chunk) it abandons it: the last side effect removes the partial output file,
nothing remains at the output path, and the final progress event is a `skip`
whose message summarizes the last failure, with the summary capped at 160
characters. -/
theorem retry_bounded_and_abandon (projectRoot outDir : String) (force : Bool)
    (rel : String) (chunk : Chunk) (existingContent : Option String)
    (inResume : Bool) (obs : Nat → AttemptObs) (maxFixLoops : Nat)
    (hrun : force = true ∨ existingContent = none)
    (hfail : ∀ a, isSuccessObs (obs a) = false) :
    ((processChunkBasic projectRoot outDir force rel chunk existingContent inResume obs
        maxFixLoops).actions.count Effect.backend ≤ maxFixLoops) ∧
    ((processChunkBasic projectRoot outDir force rel chunk existingContent false obs
        maxFixLoops).actions.getLast? = some Effect.removeFile ∧
     (processChunkBasic projectRoot outDir force rel chunk existingContent false obs
        maxFixLoops).fileContent = none ∧
     (processChunkBasic projectRoot outDir force rel chunk existingContent false obs
        maxFixLoops).events.getLast? = some
       { type := .skip, file := rel, chunkId := some chunk.id
         message := some ("Failed after " ++ natStr maxFixLoops ++ " attempts: " ++
           summarizeFailure (attemptLoop obs maxFixLoops existingContent).finalFailure) } ∧
     (summarizeFailure
       (attemptLoop obs maxFixLoops existingContent).finalFailure).length ≤ 160) := by
  have hrun' : ¬ (¬ force = true ∧ existingContent.isSome = true) := by
    rcases hrun with h | h
    · intro hc
      exact hc.1 h
    · intro hc
      rw [h] at hc
      simp at hc
  have hw : (attemptLoop obs maxFixLoops existingContent).wrote = false :=
    attemptGo_not_wrote obs _ _ _ (fun a _ => hfail a)
  have habandon := processChunkBasic_abandon projectRoot outDir force rel chunk
    existingContent obs maxFixLoops hrun' hw
  constructor
  · cases inResume with
    | true => simp [processChunkBasic]
    | false =>
      rw [habandon]
      simp only [List.count_append]
      have hb := attemptGo_backend_count obs (attemptNumbers maxFixLoops)
        "Model returned no code" existingContent
      have hlen : (attemptNumbers maxFixLoops).length = maxFixLoops := by
        simp [attemptNumbers]
      rw [hlen] at hb
      have hloop : (attemptLoop obs maxFixLoops existingContent).actions.count
          Effect.backend ≤ maxFixLoops := hb
      have hpre : (if force = true then ([] : List Effect)
          else [Effect.checkExists]).count Effect.backend = 0 := by
        split <;> decide
      have hrem : ([Effect.removeFile] : List Effect).count Effect.backend = 0 := by
        decide
      omega
  · rw [habandon]
    exact ⟨List.getLast?_concat _, rfl, rfl, summarizeFailure_length_le _⟩

/-- Witness for C1 at a concrete always-failing backend with two attempts. -/
theorem retry_bounded_and_abandon_witness :
    (processChunkBasic "root" "" false "src/a.ts" fixChunk none false
        (fun _ => AttemptObs.noCode) 2).actions.count Effect.backend ≤ 2 ∧
    (processChunkBasic "root" "" false "src/a.ts" fixChunk none false
        (fun _ => AttemptObs.noCode) 2).actions.getLast? = some Effect.removeFile :=
  ⟨(retry_bounded_and_abandon "root" "" false "src/a.ts" fixChunk none false
      (fun _ => AttemptObs.noCode) 2 (Or.inr rfl) (fun _ => rfl)).1,
   ((retry_bounded_and_abandon "root" "" false "src/a.ts" fixChunk none false
      (fun _ => AttemptObs.noCode) 2 (Or.inr rfl) (fun _ => rfl)).2).1⟩

/-- With `force` unset and the destination file already present, the agent
pipeline leaves the file's content unchanged and never performs a write,
whatever the backend does. -/
theorem processChunkAgent_noWrite (outDir rel : String) (chunk : Chunk)
    (content : String) (maxToolCalls : Nat) (turns : Nat → AgentTurn)
    (genCode : Option String) (verify : VerifyObs) (reviewCalls : Nat)
    (review : ReviewObs) (tests : Nat) (hints : String) :
    (processChunkAgent outDir false rel chunk (some content) false maxToolCalls turns
        genCode verify reviewCalls review tests hints).fileContent = some content ∧
    Effect.writeFile ∉ (processChunkAgent outDir false rel chunk (some content) false
        maxToolCalls turns genCode verify reviewCalls review tests hints).actions := by
  cases genCode with
  | none =>
    by_cases hc : (runAgent maxToolCalls turns).ok = false ∨
        (runAgent maxToolCalls turns).plan = none ∨
        (runAgent maxToolCalls turns).plan = some []
    · simp [processChunkAgent, hc, List.mem_replicate]
    · simp [processChunkAgent, hc, List.mem_replicate]
  | some g =>
    by_cases hc : (runAgent maxToolCalls turns).ok = false ∨
        (runAgent maxToolCalls turns).plan = none ∨
        (runAgent maxToolCalls turns).plan = some []
    · simp [processChunkAgent, hc, List.mem_replicate]
    · simp [processChunkAgent, hc, List.mem_replicate]

/-- C3 counterexample: in the agent path, with `force` unset and the
destination file already present, the chunk's side effects are two backend
completion calls (the planning agent's and the test-generation call) followed
by the existence probe — the existence check is not performed before backend
generation, although the file is indeed left unchanged and an `exists` event
is emitted. -/
theorem exists_check_order_counterexample :
    (processChunkAgent "out" false "src/a.ts" fixChunk (some "old") false 4 onePlanTurns
        (some "code") (VerifyObs.ok "code") 0 ReviewObs.notOk 1 "").actions =
      [Effect.backend, Effect.backend, Effect.checkExists] ∧
    (processChunkAgent "out" false "src/a.ts" fixChunk (some "old") false 4 onePlanTurns
        (some "code") (VerifyObs.ok "code") 0 ReviewObs.notOk 1 "").fileContent =
      some "old" ∧
    (processChunkAgent "out" false "src/a.ts" fixChunk (some "old") false 4 onePlanTurns
        (some "code") (VerifyObs.ok "code") 0 ReviewObs.notOk 1 "").events.getLast? =
      some ⟨EvType.exists, "src/a.ts", some fixChunk.id, none⟩ := by
  refine ⟨rfl, rfl, rfl⟩

/-- C3 amended: with `force` unset and the destination file present, neither
path overwrites the file.  The basic path performs only the existence probe —
no backend call at all, so there the check does precede generation — and
emits an `exists` event.  The agent path also leaves the content unchanged
and never writes, but its existence probe, when reached, follows the backend
calls instead of preceding them. -/
theorem exists_no_overwrite_amended (projectRoot outDir rel : String) (chunk : Chunk)
    (content : String) (obs : Nat → AttemptObs) (maxFixLoops : Nat)
    (maxToolCalls : Nat) (turns : Nat → AgentTurn) (genCode : Option String)
    (verify : VerifyObs) (reviewCalls : Nat) (review : ReviewObs) (tests : Nat)
    (hints : String) :
    (processChunkBasic projectRoot outDir false rel chunk (some content) false obs
        maxFixLoops =
      { events := [⟨.start, rel, some chunk.id, some (natStr chunk.approxTokens)⟩,
          ⟨EvType.exists, rel, some chunk.id, none⟩]
        actions := [Effect.checkExists]
        outPath := resolveOutPath projectRoot outDir rel
        fileContent := some content }) ∧
    (processChunkAgent outDir false rel chunk (some content) false maxToolCalls turns
        genCode verify reviewCalls review tests hints).fileContent = some content ∧
    Effect.writeFile ∉ (processChunkAgent outDir false rel chunk (some content) false
        maxToolCalls turns genCode verify reviewCalls review tests hints).actions := by
  refine ⟨rfl, ?_, ?_⟩
  · exact (processChunkAgent_noWrite outDir rel chunk content maxToolCalls turns genCode
      verify reviewCalls review tests hints).1
  · exact (processChunkAgent_noWrite outDir rel chunk content maxToolCalls turns genCode
      verify reviewCalls review tests hints).2

/-- C4: exhausting the planning agent's step budget is not a distinguishable
hard failure.  `runAgent` on a backend that issues a (valid) `project_info`
tool call on every turn terminates with `ok := false` and `plan := some []`
instead of an error, and the orchestrator's final progress event for the
chunk is exactly the `skip`/`"Empty plan"` event also produced when the
backend deliberately returns an empty plan — the repository's own
`tests/agent.maxSteps.test.ts` instead expects `runAgent` to reject with an
error matching `/limit/i` and `/project_info/`. -/
theorem stuck_agent_same_as_empty_plan :
    (runAgent 2 stuckTurns).ok = false ∧
    (runAgent 2 stuckTurns).plan = some [] ∧
    (runAgent 2 stuckTurns).toolLog.length = 2 ∧
    (processChunkAgent "out" false "src/a.ts" fixChunk none false 2 stuckTurns
        (some "code") (VerifyObs.ok "code") 0 ReviewObs.notOk 1 "").events.getLast? =
      some ⟨EvType.skip, "src/a.ts", some fixChunk.id, some "Empty plan"⟩ ∧
    (processChunkAgent "out" false "src/a.ts" fixChunk none false 2 emptyPlanTurns
        (some "code") (VerifyObs.ok "code") 0 ReviewObs.notOk 1 "").events.getLast? =
      some ⟨EvType.skip, "src/a.ts", some fixChunk.id, some "Empty plan"⟩ := by
  refine ⟨rfl, rfl, rfl, ?_, ?_⟩ <;> decide

/-- The output path the basic per-chunk pipeline reports is always
`resolveOutPath projectRoot outDir rel` — it does not depend on the chunk,
the existing content, the resume set, the backend or the attempt budget. -/
theorem processChunkBasic_outPath (projectRoot outDir : String) (force : Bool)
    (rel : String) (chunk : Chunk) (existingContent : Option String) (inResume : Bool)
    (obs : Nat → AttemptObs) (maxFixLoops : Nat) :
    (processChunkBasic projectRoot outDir force rel chunk existingContent inResume obs
        maxFixLoops).outPath = resolveOutPath projectRoot outDir rel := by
  simp only [processChunkBasic]
  split
  · rfl
  · split
    · rfl
    · split
      · rfl
      · rfl

/-- C6 counterexample: two distinct chunks of the same source file resolve to
the same destination path — the chunk id never enters the path, so every
chunk of one file targets the one per-file test file. -/
theorem outPath_collision_counterexample :
    sigChunk1 ≠ sigChunk2 ∧
    (processChunkBasic "root" "out" false "src/a.ts" sigChunk1 none false
        (fun _ => AttemptObs.noCode) 1).outPath =
      (processChunkBasic "root" "out" false "src/a.ts" sigChunk2 none false
        (fun _ => AttemptObs.noCode) 1).outPath := by
  exact ⟨by decide, rfl⟩

/-- C6 amended: the destination path is a function of the chunk's originating
file only.  Chunks of the same file always share one destination, whatever
their ids (the id is never embedded); the agent path's resolver is the basic
resolver with the output directory as base; and chunks originating from
distinct wellformed source files resolve to distinct destinations. -/
theorem outPath_per_file_amended (projectRoot outDir : String) (force : Bool)
    (hB : (if outDir = "" then projectRoot else outDir) ≠ "")
    (p q : RelParts) (hp : WfParts p) (hq : WfParts q) (hne : p ≠ q)
    (c d : Chunk) (e1 e2 : Option String) (r1 r2 : Bool)
    (o1 o2 : Nat → AttemptObs) (m1 m2 : Nat) :
    ((processChunkBasic projectRoot outDir force (relOfParts p) c e1 r1 o1 m1).outPath =
      resolveOutPath projectRoot outDir (relOfParts p) ∧
     (processChunkBasic projectRoot outDir force (relOfParts p) d e2 r2 o2 m2).outPath =
      resolveOutPath projectRoot outDir (relOfParts p)) ∧
    (∀ rel, resolveOutPathAgent outDir rel = resolveOutPath outDir outDir rel) ∧
    resolveOutPath projectRoot outDir (relOfParts p) ≠
      resolveOutPath projectRoot outDir (relOfParts q) := by
  refine ⟨⟨processChunkBasic_outPath projectRoot outDir force (relOfParts p) c e1 r1 o1 m1,
      processChunkBasic_outPath projectRoot outDir force (relOfParts p) d e2 r2 o2 m2⟩,
    ?_, resolveOutPath_inj projectRoot outDir hB hp hq hne⟩
  intro rel
  by_cases h : outDir = "" <;> simp [resolveOutPathAgent, resolveOutPath, h]

/-- Witness for C6 at two concrete wellformed source paths. -/
theorem outPath_per_file_amended_witness :
    (processChunkBasic "root" "" false (relOfParts ⟨none, "a", ".ts"⟩) sigChunk1 none
        false (fun _ => AttemptObs.noCode) 1).outPath =
      resolveOutPath "root" "" (relOfParts ⟨none, "a", ".ts"⟩) ∧
    resolveOutPath "root" "" (relOfParts ⟨none, "a", ".ts"⟩) ≠
      resolveOutPath "root" "" (relOfParts ⟨some "src", "b", ".tsx"⟩) := by
  have h := outPath_per_file_amended "root" "" false (by decide)
    ⟨none, "a", ".ts"⟩ ⟨some "src", "b", ".tsx"⟩
    ⟨by decide, by decide, by decide, fun d hd => by cases hd⟩
    ⟨by decide, by decide, by decide, fun d hd => by
      injection hd with h'
      exact h' ▸ ⟨by decide, by decide⟩⟩
    (by decide) sigChunk1 sigChunk2 none none false false
    (fun _ => AttemptObs.noCode) (fun _ => AttemptObs.noCode) 1 1
  exact ⟨h.1.1, h.2.2⟩

/-- C2 counterexample: the signature's serialization has no separator between
chunk records, so changing only a single chunk's id (kind, tokens, code and
every other chunk fixed) can leave `computePlanSignature` unchanged:
`sigPlanB` is exactly `sigPlanA` after rewriting chunk id `"A|hook|5B"` to
`"B|hook|5A"`, yet the two plans feed identical bytes to the hash. -/
theorem planSignature_collision_counterexample :
    replaceChunk sigPlanA
        { rel := "f.ts", originalTokens := 9, chunks := [sigChunk1, sigChunk2] }
        sigChunk1 sigChunk1' = sigPlanB ∧
    sigChunk1'.id ≠ sigChunk1.id ∧
    sigChunk1'.kind = sigChunk1.kind ∧
    sigChunk1'.approxTokens = sigChunk1.approxTokens ∧
    sigChunk1'.code = sigChunk1.code ∧
    computePlanSignature sigPlanB = computePlanSignature sigPlanA := by
  refine ⟨by decide, by decide, rfl, rfl, rfl, ?_⟩
  have hA : sortByStringKey Chunk.id [sigChunk1, sigChunk2] = [sigChunk1, sigChunk2] := by
    refine sortByStringKey_eq Chunk.id (List.Perm.refl _) ?_ (by decide)
    constructor
    · intro b hb
      rw [List.mem_singleton] at hb
      subst hb
      rw [String.le_iff_toList_le]
      decide
    · exact List.pairwise_singleton _ _
  have hB : sortByStringKey Chunk.id [sigChunk1', sigChunk2] = [sigChunk2, sigChunk1'] := by
    refine sortByStringKey_eq Chunk.id (List.Perm.swap sigChunk2 sigChunk1' []) ?_ (by decide)
    constructor
    · intro b hb
      rw [List.mem_singleton] at hb
      subst hb
      rw [String.le_iff_toList_le]
      decide
    · exact List.pairwise_singleton _ _
  rw [computePlanSignature, computePlanSignature]
  simp only [sigPlanA, sigPlanB]
  rw [sortByStringKey_singleton, sortByStringKey_singleton]
  simp only [List.map_cons, List.map_nil, itemSerial]
  rw [hA, hB]
  decide

/-- C2 amended: `computePlanSignature` is deterministic and
order-independent — on a plan whose item rels and per-item chunk ids are
pairwise distinct (as `planWork` produces), permuting the items or the chunks
within an item leaves the signature's hash preimage unchanged — and changing
a single chunk's `kind` or `approxTokens` while keeping its id and everything
else fixed changes the preimage.  Changing only a chunk's id, however, need
not change it (no separator follows a chunk record), as the counterexample
shows. -/
theorem planSignature_amended {p q : WorkPlan} (hnd : PlanKeysNodup p)
    (hperm : PlanPerm p q) {i0 : WorkItem} {c0 c0' : Chunk}
    (hi : i0 ∈ p.items) (hc : c0 ∈ i0.chunks) (hid : c0'.id = c0.id)
    (hne : c0'.kind ≠ c0.kind ∨ c0'.approxTokens ≠ c0.approxTokens) :
    computePlanSignature p = computePlanSignature q ∧
    computePlanSignature (replaceChunk p i0 c0 c0') ≠ computePlanSignature p := by
  refine ⟨computePlanSignature_perm hnd hperm, fun h => ?_⟩
  have hfields := chunkRec_fields hid (planSig_replace hnd hi hc hid h)
  rcases hne with hne | hne
  · exact hne hfields.1
  · exact hne hfields.2

/-- Witness for C2: swapping the two chunks of `sigPlanA`'s item preserves the
signature, while changing `sigChunk1`'s kind from `hook` to `module` (id and
tokens fixed) changes it. -/
theorem planSignature_amended_witness :
    computePlanSignature sigPlanA = computePlanSignature
      { ctxBudget := 1024, renderer := .rtlWeb, framework := .jest
        items := [{ rel := "f.ts", originalTokens := 9
                    chunks := [sigChunk2, sigChunk1] }] } ∧
    computePlanSignature (replaceChunk sigPlanA
        { rel := "f.ts", originalTokens := 9, chunks := [sigChunk1, sigChunk2] }
        sigChunk1 { id := "A|hook|5B", code := "x", kind := .module, approxTokens := 5 }) ≠
      computePlanSignature sigPlanA :=
  @planSignature_amended sigPlanA
    { ctxBudget := 1024, renderer := .rtlWeb, framework := .jest
      items := [{ rel := "f.ts", originalTokens := 9, chunks := [sigChunk2, sigChunk1] }] }
    ⟨by decide, by decide⟩
    ⟨rfl, rfl, rfl,
      [{ rel := "f.ts", originalTokens := 9, chunks := [sigChunk2, sigChunk1] }],
      List.Forall₂.cons ⟨rfl, rfl, rfl, List.Perm.swap sigChunk2 sigChunk1 []⟩
        List.Forall₂.nil,
      List.Perm.refl _⟩
    { rel := "f.ts", originalTokens := 9, chunks := [sigChunk1, sigChunk2] }
    sigChunk1 { id := "A|hook|5B", code := "x", kind := .module, approxTokens := 5 }
    (by decide) (by decide) rfl (Or.inl (by decide))
